import Mathlib

/-!
Shallow embedding of the automata toolkit (`nfa.py`, `dfa.py`, `parsing.py`,
`distance.py`) and verification of its specification claims.

Modelling conventions:
* Python integer state ids are `ℤ` (offset arithmetic in `concat`/`union`
  can go below the operands' ranges).
* The Python epsilon sentinel `''` is `none`; a literal symbol `t` is `some t`.
* Python dicts iterate in insertion order, so a dict is an association list
  in insertion order (`TransList`); Python sets of states are `Finset ℤ`
  (their iteration order is unspecified in Python, so loops over them are
  embedded over the canonically sorted element list).
* Python worklists (`list.append` + `list.pop()`, i.e. LIFO) are embedded as
  cons-lists whose head is the most recently pushed element.
* A raised exception is `none` / an absent result.
-/

namespace Automata

/-- Transition symbols: `none` models the Python empty-string epsilon marker
`''`, `some t` a literal symbol. -/
abbrev Sym (T : Type) := Option T

/-- The transition multimap of `nfa.py`: a `defaultdict` from
`(state, symbol)` to a set of destination states, in insertion order. -/
abbrev TransList (T : Type) := List ((ℤ × Sym T) × Finset ℤ)

variable {T : Type} [DecidableEq T]

/-- Dictionary lookup with the `defaultdict(set)` default: a missing key
reads as the empty set of destinations. -/
def transLookup (ts : TransList T) (k : ℤ × Sym T) : Finset ℤ :=
  match ts.find? (fun e => decide (e.1 = k)) with
  | some e => e.2
  | none => ∅

/-- `key in transitions` (Python containment test on the dict). -/
def transHasKey (ts : TransList T) (k : ℤ × Sym T) : Bool :=
  ts.any (fun e => decide (e.1 = k))

/-- `transitions[key].update(v)` on a `defaultdict(set)`: union into the
existing entry in place, or append a fresh entry in insertion order. -/
def transAdd : TransList T → ℤ × Sym T → Finset ℤ → TransList T
  | [], k, v => [(k, v)]
  | e :: ts, k, v => if e.1 = k then (k, e.2 ∪ v) :: ts else e :: transAdd ts k v

/-- `transitions[key] = v` (plain dict assignment, replacing any existing
entry, else appending in insertion order). -/
def transSet : TransList T → ℤ × Sym T → Finset ℤ → TransList T
  | [], k, v => [(k, v)]
  | e :: ts, k, v => if e.1 = k then (k, v) :: ts else e :: transSet ts k v

/-- `set.add` on a Python set modelled as a duplicate-free list in insertion
order. -/
def listInsert (xs : List T) (y : T) : List T :=
  if y ∈ xs then xs else xs ++ [y]

/-- `set.update` on a Python set modelled as a duplicate-free list in
insertion order. -/
def listUnion (xs ys : List T) : List T :=
  ys.foldl listInsert xs

/-- Insert an integer into an ascending sorted list. -/
def insertSorted (x : ℤ) : List ℤ → List ℤ
  | [] => [x]
  | y :: ys => if x ≤ y then x :: y :: ys else y :: insertSorted x ys

/-- Insertion is left-commutative, so it folds over a multiset. -/
theorem insertSorted_comm : ∀ (x y : ℤ) (l : List ℤ),
    insertSorted x (insertSorted y l) = insertSorted y (insertSorted x l)
  | x, y, [] => by
    by_cases h1 : x ≤ y <;> by_cases h2 : y ≤ x <;>
      simp [insertSorted, h1, h2] <;> omega
  | x, y, z :: zs => by
    by_cases h1 : x ≤ y <;> by_cases h2 : y ≤ x <;>
      by_cases h3 : x ≤ z <;> by_cases h4 : y ≤ z <;>
      simp [insertSorted, h1, h2, h3, h4, insertSorted_comm x y zs] <;> omega

instance : LeftCommutative insertSorted := ⟨insertSorted_comm⟩

/-- Iteration order for a Python set of states: its elements in ascending
order (Python iterates sets in an unspecified order; every loop embedded
through `sortFin` computes an order-independent result). -/
def sortFin (s : Finset ℤ) : List ℤ :=
  Multiset.foldr insertSorted [] s.val

/-- The NFA of `nfa.py` (lines 14-32): integer states, an alphabet set, a
transition multimap, one start state and one final state. -/
structure NFA (T : Type) where
  states : Finset ℤ
  alphabet : List T
  transitions : TransList T
  start_state : ℤ
  final_state : ℤ
  deriving DecidableEq

/-- One saturation step of the epsilon-reachability worklist of
`NFA.eps_closure`: add every state reachable from `S` by one epsilon edge. -/
def epsStep (ts : TransList T) (S : Finset ℤ) : Finset ℤ :=
  S ∪ S.biUnion (fun s => transLookup ts (s, none))

/-- `NFA.eps_closure` (nfa.py lines 181-195): the states reachable from
`state` through at least one epsilon edge, optionally including `state`
itself; if `state` has no epsilon entry at all the loop is skipped.  The
Python worklist loop pops from an unordered set and computes the
epsilon-reachable set of the initial worklist; it is embedded as a bounded
saturation from that same initial set. -/
def NFA.eps_closure (A : NFA T) (state : ℤ) (include_state : Bool := false) : Finset ℤ :=
  let base : Finset ℤ := if include_state then {state} else ∅
  if ¬ transHasKey A.transitions (state, none) then base
  else base ∪ (epsStep A.transitions)^[A.states.card] (transLookup A.transitions (state, none))

/-- `NFA.next_states` (nfa.py lines 197-208): states reachable from
`current_state` by one `sym` transition taken from the state itself or its
epsilon closure, optionally followed by epsilon closure; empty if `sym` is
not in the alphabet. -/
def NFA.next_states (A : NFA T) (current_state : ℤ) (sym : T) (incl_eps : Bool := false) :
    Finset ℤ :=
  if ¬ sym ∈ A.alphabet then ∅
  else ({current_state} ∪ A.eps_closure current_state).biUnion (fun st =>
    let d := transLookup A.transitions (st, some sym)
    if incl_eps then d ∪ d.biUnion (fun ns => A.eps_closure ns) else d)

/-- `NFA._accept` (nfa.py lines 213-217): recursive nondeterministic
simulation from a given state over the remaining input suffix. -/
def NFA.acceptFrom (A : NFA T) : List T → ℤ → Bool
  | [], q => decide (q = A.final_state ∨ A.final_state ∈ A.eps_closure q)
  | c :: rest, q => (sortFin (A.next_states q c)).any (fun q' => A.acceptFrom rest q')

/-- `NFA.accept` (nfa.py lines 210-211). -/
def NFA.accept (A : NFA T) (string : List T) : Bool :=
  A.acceptFrom string A.start_state

/-- Python `max(states)` (total here, with a junk value where Python would
raise on an empty set; the combinators are only applied to nonempty
automata). -/
def fmax (s : Finset ℤ) : ℤ := s.max.unbot' 0

/-- Python `min(states)`, with the same convention as `fmax`. -/
def fmin (s : Finset ℤ) : ℤ := s.min.untop' 0

/-- `NFA.concat` (nfa.py lines 40-52): renumber `other`'s states by an
offset, identify `other`'s start state with `self`'s final state, and take
`other`'s renumbered final state as the new final state. -/
def NFA.concat (self other : NFA T) : NFA T :=
  let corr : ℤ := fmax self.states - fmin other.states + 1
  let remap : ℤ → ℤ := fun s => if s = other.start_state then self.final_state else s + corr
  { states := self.states ∪
      (other.states.filter (fun s => s ≠ other.start_state)).image (· + corr)
    alphabet := listUnion self.alphabet other.alphabet
    transitions := other.transitions.foldl
      (fun ts e => transAdd ts (remap e.1.1, e.1.2) (e.2.image remap)) self.transitions
    start_state := self.start_state
    final_state := other.final_state + corr }

/-- `NFA.union` (nfa.py lines 57-72): renumber `other`'s states by an
offset, identifying `other`'s start with `self`'s start and `other`'s final
with `self`'s final (no epsilon hub states). -/
def NFA.union (self other : NFA T) : NFA T :=
  let corr : ℤ := fmax self.states - fmin other.states + 1
  let remap : ℤ → ℤ := fun s =>
    if s = other.final_state then self.final_state
    else if s = other.start_state then self.start_state
    else s + corr
  { states := self.states ∪
      (other.states.filter (fun s => s ≠ other.start_state ∧ s ≠ other.final_state)).image
        (· + corr)
    alphabet := listUnion self.alphabet other.alphabet
    transitions := other.transitions.foldl
      (fun ts e => transAdd ts (remap e.1.1, e.1.2) (e.2.image remap)) self.transitions
    start_state := self.start_state
    final_state := self.final_state }

/-- `NFA.star` (nfa.py lines 74-82): two fresh states wired with epsilon
edges in the Thompson star pattern. -/
def NFA.star (self : NFA T) : NFA T :=
  let start_state : ℤ := fmax self.states + 1
  let final_state : ℤ := fmax self.states + 2
  { states := self.states ∪ {start_state, final_state}
    alphabet := self.alphabet
    transitions := transAdd
      (transAdd self.transitions (start_state, none) {self.start_state, final_state})
      (self.final_state, none) {self.start_state, final_state}
    start_state := start_state
    final_state := final_state }

/-- `NFA.plus` (nfa.py lines 84-92): like `star` but the new start state has
an epsilon edge only to the old start state. -/
def NFA.plus (self : NFA T) : NFA T :=
  let start_state : ℤ := fmax self.states + 1
  let final_state : ℤ := fmax self.states + 2
  { states := self.states ∪ {start_state, final_state}
    alphabet := self.alphabet
    transitions := transAdd
      (transAdd self.transitions (start_state, none) {self.start_state})
      (self.final_state, none) {self.start_state, final_state}
    start_state := start_state
    final_state := final_state }

/-- `NFA.opt` (nfa.py lines 94-96): add one epsilon edge from start to
final. -/
def NFA.opt (self : NFA T) : NFA T :=
  { self with transitions := transAdd self.transitions (self.start_state, none) {self.final_state} }

/-- The single-valued transition dict of `dfa.py`, in insertion order. -/
abbrev DTransList (T : Type) := List ((ℤ × T) × ℤ)

/-- DFA dict lookup; a missing key is `none` (the implicit reject). -/
def dtransLookup (ts : DTransList T) (k : ℤ × T) : Option ℤ :=
  (ts.find? (fun e => decide (e.1 = k))).map (·.2)

/-- `transitions[key] = v` on the DFA dict (replace or append). -/
def dtransSet : DTransList T → ℤ × T → ℤ → DTransList T
  | [], k, v => [(k, v)]
  | e :: ts, k, v => if e.1 = k then (k, v) :: ts else e :: dtransSet ts k v

/-- The DFA of `dfa.py` (lines 13-29): integer states, an alphabet set, a
partial single-valued transition function, a start state and a set of final
states. -/
structure DFA (T : Type) where
  states : Finset ℤ
  alphabet : List T
  transitions : DTransList T
  start_state : ℤ
  final_states : Finset ℤ
  deriving DecidableEq

/-- The deterministic walk of `DFA.accept` (dfa.py lines 109-115): reject on
any missing transition, accept iff the ending state is final. -/
def DFA.acceptGo (D : DFA T) : ℤ → List T → Bool
  | q, [] => decide (q ∈ D.final_states)
  | q, c :: rest =>
    match dtransLookup D.transitions (q, c) with
    | none => false
    | some q' => D.acceptGo q' rest

/-- `DFA.accept` (dfa.py lines 109-115). -/
def DFA.accept (D : DFA T) (string : List T) : Bool :=
  D.acceptGo D.start_state string

/-- The `for sym in self.alphabet` body of the subset-construction loop of
`NFA.to_dfa` (nfa.py lines 232-249), acting on
(state list, DFA transitions, indices newly pushed onto the worklist with
the most recent first). -/
def toDfaSym (A : NFA T) (complete : Bool) (i : ℕ)
    (acc : List (Finset ℤ) × DTransList T × List ℕ) (sym : T) :
    List (Finset ℤ) × DTransList T × List ℕ :=
  let sl := acc.1
  let result_states := (sl.getD i ∅).biUnion (fun st => transLookup A.transitions (st, some sym))
  let next_state := result_states.biUnion (fun st => A.eps_closure st true)
  if ¬ complete ∧ next_state = ∅ then acc
  else
    match sl.findIdx? (fun s => decide (s = next_state)) with
    | some j => (sl, dtransSet acc.2.1 ((i : ℤ), sym) (j : ℤ), acc.2.2)
    | none =>
      (sl ++ [next_state], dtransSet acc.2.1 ((i : ℤ), sym) (sl.length : ℤ),
        sl.length :: acc.2.2)

/-- The worklist loop of `NFA.to_dfa` (nfa.py lines 224-249), fuelled; the
worklist is LIFO with the head as top.  `none` is fuel exhaustion (shown
unreachable for well-formed automata at the stated fuel). -/
def toDfaLoop (A : NFA T) (complete : Bool) :
    ℕ → List ℕ → List (Finset ℤ) × DTransList T → Option (List (Finset ℤ) × DTransList T)
  | 0, _, _ => none
  | fuel + 1, wl, st =>
    match wl with
    | [] => some st
    | i :: rest =>
      if st.1.getD i ∅ = ∅ then
        toDfaLoop A complete fuel rest
          (st.1, A.alphabet.foldl (fun t sym => dtransSet t ((i : ℤ), sym) (i : ℤ)) st.2)
      else
        let res := A.alphabet.foldl (toDfaSym A complete i) (st.1, st.2, [])
        toDfaLoop A complete fuel (res.2.2 ++ rest) (res.1, res.2.1)

/-- `NFA.to_dfa` (nfa.py lines 219-251), exposing the list of NFA-state
subsets built by the construction. -/
def NFA.to_dfaCore (A : NFA T) (complete : Bool := false) :
    Option (List (Finset ℤ) × DTransList T) :=
  toDfaLoop A complete (2 * 2 ^ A.states.card + 1) [0] ([A.eps_closure A.start_state true], [])

/-- `NFA.to_dfa` (nfa.py lines 219-251): subset construction.  The junk
value on the `none` branch is unreachable for well-formed automata (the
fuel of `to_dfaCore` suffices; see the termination theorem). -/
def NFA.to_dfa (A : NFA T) (complete : Bool := false) : DFA T :=
  match A.to_dfaCore complete with
  | none => ⟨{0}, A.alphabet, [], 0, ∅⟩
  | some (sl, tr) =>
    { states := ((List.range sl.length).map Int.ofNat).toFinset
      alphabet := A.alphabet
      transitions := tr
      start_state := 0
      final_states :=
        (((List.range sl.length).filter (fun i => decide (A.final_state ∈ sl.getD i ∅))).map
          Int.ofNat).toFinset }

/-- The body of the reachability scan of `DFA.minimize` (dfa.py lines
38-49) for one popped state and one symbol, threading
(reachable non-final states, reachable final states, newly pushed states
with the most recent first). -/
def reachSym (D : DFA T) (curr : ℤ) (acc : Finset ℤ × Finset ℤ × List ℤ) (sym : T) :
    Finset ℤ × Finset ℤ × List ℤ :=
  match dtransLookup D.transitions (curr, sym) with
  | none => acc
  | some dst =>
    if dst ∈ acc.1 ∨ dst ∈ acc.2.1 then acc
    else if dst ∈ D.final_states then (acc.1, acc.2.1 ∪ {dst}, dst :: acc.2.2)
    else (acc.1 ∪ {dst}, acc.2.1, dst :: acc.2.2)

/-- The reachability worklist loop of `DFA.minimize` (dfa.py lines 38-49),
fuelled; `none` is fuel exhaustion. -/
def reachLoop (D : DFA T) : ℕ → List ℤ → Finset ℤ × Finset ℤ → Option (Finset ℤ × Finset ℤ)
  | 0, _, _ => none
  | _ + 1, [], acc => some acc
  | fuel + 1, curr :: rest, acc =>
    let res := D.alphabet.foldl (reachSym D curr) (acc.1, acc.2, [])
    reachLoop D fuel (res.2.2 ++ rest) (res.1, res.2.1)

/-- A split performed by the refinement loop of `DFA.minimize`: the index
that was split, the cell that stood there, the piece stored back at that
index (`to_curr`) and the piece appended at the end (`not_to_curr`). -/
structure SplitEvent where
  index : ℕ
  cell : List ℤ
  kept : List ℤ
  appended : List ℤ
  deriving DecidableEq

/-- The state of the refinement loop of `DFA.minimize`: the partitions, the
set of partition indices flagged final, the LIFO worklist (head = top) and
the log of splits performed so far. -/
structure MinState where
  parts : List (List ℤ)
  finals : Finset ℕ
  wl : List ℕ
  events : List SplitEvent
  deriving DecidableEq

/-- Whether a state's `sym`-transition exists and lands in the splitter
cell (the classification test of dfa.py line 70). -/
def goesToSplitter (D : DFA T) (curr_part : List ℤ) (sym : T) (state : ℤ) : Bool :=
  match dtransLookup D.transitions (state, sym) with
  | some dst => decide (dst ∈ curr_part)
  | none => false

/-- The `for state in part` classification loop of `DFA.minimize` (dfa.py
lines 68-73), one iteration per state: append each state to `to_curr` if
its `sym`-transition exists and lands in the splitter, else to
`not_to_curr`. -/
def splitCellGo (D : DFA T) (curr_part : List ℤ) (sym : T) :
    List ℤ → List ℤ × List ℤ → List ℤ × List ℤ
  | [], p => p
  | state :: part, p =>
    splitCellGo D curr_part sym part
      (match dtransLookup D.transitions (state, sym) with
       | some dst => if dst ∈ curr_part then (p.1 ++ [state], p.2) else (p.1, p.2 ++ [state])
       | none => (p.1, p.2 ++ [state]))

/-- The classification loop of `DFA.minimize` (dfa.py lines 68-73). -/
def splitCell (D : DFA T) (curr_part : List ℤ) (sym : T) (part : List ℤ) :
    List ℤ × List ℤ :=
  splitCellGo D curr_part sym part ([], [])

/-- The body of the `for index in range(len(partitions))` loop of
`DFA.minimize` (dfa.py lines 66-83): split the cell at `index` against the
splitter `curr_part` if both pieces are nonempty, storing `to_curr` back at
`index`, appending `not_to_curr`, flagging finality of the new cell, and
pushing either the new index or `index` onto the worklist. -/
def refineIndex (D : DFA T) (curr_part : List ℤ) (sym : T) (st : MinState) (index : ℕ) :
    MinState :=
  let part := st.parts.getD index []
  let tc := splitCell D curr_part sym part
  if tc.1 = [] ∨ tc.2 = [] then st
  else
    let parts' := st.parts.set index tc.1 ++ [tc.2]
    { parts := parts'
      finals := if index ∈ st.finals then st.finals ∪ {parts'.length - 1} else st.finals
      wl := if index ∈ st.wl ∨ tc.2.length < tc.1.length
            then (parts'.length - 1) :: st.wl else index :: st.wl
      events := st.events ++ [⟨index, part, tc.1, tc.2⟩] }

/-- The refinement worklist loop of `DFA.minimize` (dfa.py lines 62-83),
fuelled; the splitter cell is captured before the double loop, and the
index range is re-snapshotted for each symbol, as in the source.  `none`
is fuel exhaustion. -/
def minimizeLoop (D : DFA T) : ℕ → MinState → Option MinState
  | 0, _ => none
  | fuel + 1, st =>
    match st.wl with
    | [] => some st
    | i :: rest =>
      let curr_part := st.parts.getD i []
      let st' := D.alphabet.foldl (fun s sym =>
        (List.range s.parts.length).foldl (refineIndex D curr_part sym) s)
        ⟨st.parts, st.finals, rest, st.events⟩
      minimizeLoop D fuel st'

/-- `state_map` of `DFA.minimize` (dfa.py lines 84-87): map a state to its
partition index (later partitions overwrite; the cells are disjoint, so at
most one applies).  States in no partition read as a junk index 0, which
Python would report as a `KeyError`; this is unreachable for well-formed
inputs. -/
def partIndexOf (parts : List (List ℤ)) (state : ℤ) : ℕ :=
  match (parts.enum.filter (fun pi => decide (state ∈ pi.2))).getLast? with
  | some pi => pi.1
  | none => 0

/-- The result of `DFA.minimize`, exposing the final partition list and the
split log alongside the output automaton. -/
structure MinimizeResult (T : Type) where
  dfa : DFA T
  partitions : List (List ℤ)
  events : List SplitEvent

/-- `DFA.minimize` (dfa.py lines 31-98): restrict to the reachable states,
collapse to a single non-accepting state if no final state is reachable,
otherwise refine the two-block partition to a fixpoint and quotient the
automaton by the final partition. -/
def DFA.minimizeCore (D : DFA T) : Option (MinimizeResult T) := do
  let reach ← reachLoop D (2 * D.states.card + 2) [D.start_state]
    (if D.start_state ∈ D.final_states then (∅, {D.start_state}) else ({D.start_state}, ∅))
  let rs := reach.1
  let rf := reach.2
  if rf = ∅ then
    return ⟨⟨{0}, D.alphabet, [], 0, ∅⟩, [], []⟩
  else
    let parts0 := if rs = ∅ then [sortFin rf] else [sortFin rf, sortFin rs]
    let res ← minimizeLoop D (2 * (rs ∪ rf).card + 3)
      ⟨parts0, {0}, (List.range parts0.length).reverse, []⟩
    let transitions := res.parts.enum.foldl (fun tr pi =>
      pi.2.foldl (fun tr state =>
        D.alphabet.foldl (fun tr sym =>
          match dtransLookup D.transitions (state, sym) with
          | some dst => dtransSet tr ((pi.1 : ℤ), sym) ((partIndexOf res.parts dst : ℕ) : ℤ)
          | none => tr) tr) tr) []
    return ⟨⟨((List.range res.parts.length).map Int.ofNat).toFinset, D.alphabet, transitions,
      ((partIndexOf res.parts D.start_state : ℕ) : ℤ), res.finals.image Int.ofNat⟩,
      res.parts, res.events⟩

/-- `DFA.minimize` (dfa.py lines 31-98).  The junk value on the `none`
branch is unreachable for well-formed automata (the fuels of
`minimizeCore` suffice; see the termination theorem). -/
def DFA.minimize (D : DFA T) : DFA T :=
  match D.minimizeCore with
  | some r => r.dfa
  | none => ⟨{0}, D.alphabet, [], 0, ∅⟩


/-- A token of the postfix program produced by `parse_regex`: an operator id
from the `_operators` table of parsing.py (0 concatenation, 1 alternation,
2 star, 3 plus, 4 optional, 5 group-open, 6 group-close) or a literal
character. -/
inductive PTok where
  | op (id : Nat)
  | lit (c : Char)
  deriving DecidableEq

/-- The `precedence` column of the `_operators` table (parsing.py lines
20-32). -/
def opPrecedence : Nat → Nat
  | 0 => 2
  | 1 => 1
  | 2 => 3
  | 3 => 3
  | 4 => 3
  | _ => 0

/-- The `suffix` column of the `_operators` table. -/
def opSuffix (id : Nat) : Bool :=
  decide (id = 2 ∨ id = 3 ∨ id = 4)

/-- The operator id of a single operator character, if any (parsing.py lines
20-32; `(` and `)` are handled by dedicated branches of the parse loop). -/
def opId? : Char → Option Nat
  | '|' => some 1
  | '*' => some 2
  | '+' => some 3
  | '?' => some 4
  | '(' => some 5
  | ')' => some 6
  | _ => none

/-- The `while stack[-1] != _operators['('].id` pop loop of the `)` branch
of `parse_regex` (parsing.py lines 68-70): move operators to the output
until the group-open id 5 is found and popped; `none` models the
`IndexError` from `stack[-1]` on an empty stack. -/
def popUntilOpen : List Nat → List PTok → Option (List Nat × List PTok)
  | [], _ => none
  | id :: stack, out =>
    if id = 5 then some (stack, out) else popUntilOpen stack (out ++ [PTok.op id])

/-- The operator pop loop of `parse_regex` (parsing.py lines 73-74): move
stacked operators with strictly higher precedence to the output (the stack
holds operator ids only, so the `type(stack[-1]) != int` disjunct of the
source is always false). -/
def popHigher (p : Nat) : List Nat → List PTok → List Nat × List PTok
  | [], out => ([], out)
  | id :: stack, out =>
    if p < opPrecedence id then popHigher p stack (out ++ [PTok.op id])
    else (id :: stack, out)

/-- The `(?...)` group-header scan of `parse_regex` (parsing.py lines
59-64), applied to the characters following a consumed `(`: skip a `?`
plus one more character, and for a `(?<name>` header scan forward past the
first `>`.  `none` models an `IndexError` from reading past the end of the
input. -/
def groupScan : List Char → Option (List Char)
  | [] => none
  | c :: rest =>
    if c ≠ '?' then some (c :: rest)
    else
      match rest with
      | [] => none
      | c2 :: rest2 =>
        if c2 = '<' then
          match rest2 with
          | [] => none
          | c3 :: _ =>
            if c3 = '!' ∨ c3 = '=' then some rest2
            else
              match rest2.dropWhile (fun x => decide (x ≠ '>')) with
              | [] => none
              | _ :: after => some after
        else some rest2

/-- The main loop of `parse_regex` (parsing.py lines 43-88).  `cn` is the
`concatenate_next` flag; when a concatenation is inserted the pending
character is reprocessed without being consumed (in the backslash case the
backslash itself has already been consumed, so the escaped character is
reprocessed unescaped, as in the source).  At the end of the input the
remaining operator stack is flushed to the output (parsing.py lines
85-86).  `none` models a fatal parse error (an uncaught `IndexError`).
Each Python loop iteration either consumes input or clears the
`concatenate_next` flag, so `2 * length + 1` fuel always suffices; the
fuel makes the recursion structural. -/
def parseLoop : ℕ → List Char → Bool → List Nat → List PTok → Option (List PTok)
  | 0, _, _, _, _ => none
  | _ + 1, [], _, stack, out => some (out ++ stack.map PTok.op)
  | fuel + 1, c :: rest, cn, stack, out =>
    if c = '\\' then
      match rest with
      | [] => none
      | c2 :: rest2 =>
        if cn then
          let so := popHigher 2 stack out
          parseLoop fuel (c2 :: rest2) false (0 :: so.1) so.2
        else parseLoop fuel rest2 true stack (out ++ [PTok.lit c2])
    else if c = '(' then
      if cn then
        let so := popHigher 2 stack out
        parseLoop fuel (c :: rest) false (0 :: so.1) so.2
      else
        match groupScan rest with
        | none => none
        | some rest' => parseLoop fuel rest' false (5 :: stack) out
    else if c = ')' then
      match popUntilOpen stack out with
      | none => none
      | some so => parseLoop fuel rest true so.1 so.2
    else
      match opId? c with
      | some id =>
        let so := popHigher (opPrecedence id) stack out
        if opSuffix id then parseLoop fuel rest true so.1 (so.2 ++ [PTok.op id])
        else parseLoop fuel rest false (id :: so.1) so.2
      | none =>
        if cn then
          let so := popHigher 2 stack out
          parseLoop fuel (c :: rest) false (0 :: so.1) so.2
        else parseLoop fuel rest true stack (out ++ [PTok.lit c])

/-- `parse_regex` (parsing.py lines 36-88): shunting-yard parse of an infix
regex into a postfix program; `none` is a fatal parse error. -/
def parse_regex (regex : List Char) : Option (List PTok) :=
  parseLoop (2 * regex.length + 1) regex false [] []

/-- The evaluation loop of `construct_nfa` (parsing.py lines 128-147):
interpret the postfix program over the NFA algebra.  The operand stack has
its top at the head; `syms[0]` is the first pop.  Operator ids without an
evaluation branch (the group ids 5 and 6) pop nothing and push nothing.
`none` models the `IndexError`/`ValueError` of a malformed program. -/
def constructGo : List PTok → List (NFA Char) → Option (NFA Char)
  | [], [A] => some A
  | [], _ => none
  | PTok.lit c :: ps, stack =>
    constructGo ps (⟨{0, 1}, [c], [((0, some c), {1})], 0, 1⟩ :: stack)
  | PTok.op 0 :: ps, a :: b :: stack => constructGo ps (b.concat a :: stack)
  | PTok.op 1 :: ps, a :: b :: stack => constructGo ps (b.union a :: stack)
  | PTok.op 2 :: ps, a :: stack => constructGo ps (a.star :: stack)
  | PTok.op 3 :: ps, a :: stack => constructGo ps (a.plus :: stack)
  | PTok.op 4 :: ps, a :: stack => constructGo ps (a.opt :: stack)
  | PTok.op (_ + 5) :: ps, stack => constructGo ps stack
  | _, _ => none

/-- `construct_nfa` (parsing.py lines 124-150): compile a postfix program
into an NFA; the empty program yields the one-state automaton accepting
only the empty string. -/
def construct_nfa (pfx : List PTok) : Option (NFA Char) :=
  if pfx = [] then some ⟨{0}, [], [], 0, 0⟩ else constructGo pfx []

/-- `parse_regex_as_nfa` (parsing.py lines 153-154). -/
def parse_regex_as_nfa (regex : List Char) : Option (NFA Char) :=
  match parse_regex regex with
  | none => none
  | some pfx => construct_nfa pfx

/-! ### Claim C4: the concrete `a(aa)*b*` scenario -/

/-- The concrete regex of the spec scenario. -/
def regexC4 : List Char := "a(aa)*b*".toList

/-- A junk automaton used only as the (unreached) default of `Option.getD`
below. -/
def junkNFA : NFA Char := ⟨∅, [], [], 0, 0⟩

/-- The NFA compiled from `a(aa)*b*`. -/
def nfaC4 : NFA Char := (parse_regex_as_nfa regexC4).getD junkNFA

/-- The minimized DFA of the scenario: `to_dfa()` followed by `minimize()`. -/
def mdfaC4 : DFA Char := (nfaC4.to_dfa).minimize

/-- C4: for the regex `a(aa)*b*`, the compiled NFA and its minimized DFA
both accept "a" and "aaab" and reject "b" and the empty string, and the
DFA returned by `to_dfa()` followed by `minimize()` has exactly 3 states.
(The first conjunct pins down that the parse succeeds, so `nfaC4` really
is the compiled automaton.) -/
theorem C4_concrete_regex_scenario :
    (parse_regex_as_nfa regexC4).isSome = true ∧
    nfaC4.accept "a".toList = true ∧
    nfaC4.accept "aaab".toList = true ∧
    nfaC4.accept "b".toList = false ∧
    nfaC4.accept "".toList = false ∧
    mdfaC4.accept "a".toList = true ∧
    mdfaC4.accept "aaab".toList = true ∧
    mdfaC4.accept "b".toList = false ∧
    mdfaC4.accept "".toList = false ∧
    mdfaC4.states.card = 3 := by
  decide

/-! ### Claim C7: unbalanced parentheses -/

/-- A `)` pop with no group-open id 5 anywhere on the operator stack
exhausts the stack and fails (`stack[-1]` on an empty list). -/
theorem popUntilOpen_none_of_no_open (stack : List Nat) (out : List PTok)
    (h : 5 ∉ stack) : popUntilOpen stack out = none := by
  induction stack generalizing out with
  | nil => rfl
  | cons id rest ih =>
    have hid : id ≠ 5 := fun he => h (he ▸ List.mem_cons_self id rest)
    have hrest : 5 ∉ rest := fun hm => h (List.mem_cons_of_mem id hm)
    simp only [popUntilOpen, if_neg hid]
    exact ih _ hrest

/-- C7 counterexample: the input `(a` has a `(` that is never closed, yet
`parse_regex` raises no error — it returns a postfix program (which even
contains the group-open operator id 5). -/
theorem C7_counterexample_unclosed_paren :
    parse_regex "(a".toList = some [PTok.lit 'a', PTok.op 5] := by
  decide

/-- C7 (amended): whenever the scanner reaches a `)` with no matching `(`
id on the operator stack — whatever input remains and whatever has been
parsed so far — `parse_regex`'s loop raises a fatal parse error and
produces no postfix program; but a `(` that is never closed is not an
error: its operator id is flushed into the returned postfix program. -/
theorem C7_amended_unbalanced_parens :
    (∀ (fuel : ℕ) (rest : List Char) (cn : Bool) (stack : List Nat) (out : List PTok),
      5 ∉ stack → parseLoop fuel (')' :: rest) cn stack out = none) ∧
    parse_regex "(a".toList = some [PTok.lit 'a', PTok.op 5] := by
  constructor
  · intro fuel rest cn stack out h
    match fuel with
    | 0 => rfl
    | fuel + 1 =>
      simp only [parseLoop, if_neg (by decide : ¬ (')' : Char) = '\\'),
        if_neg (by decide : ¬ (')' : Char) = '('), if_pos rfl,
        popUntilOpen_none_of_no_open stack out h]
      simp
  · decide

/-- Witness for C7: a concrete unmatched `)` input on which the amended
theorem applies and yields a fatal parse error. -/
theorem C7_witness_unmatched_close :
    parse_regex ")a".toList = none :=
  C7_amended_unbalanced_parens.1 5 ['a'] false [] [] (by decide)

/-! ### `NFA.rip` (nfa.py lines 101-147) -/

/-- `outgoing_transitions[sym] = v` (plain dict assignment keyed by
symbol). -/
def symAssocSet : List (Sym T × Finset ℤ) → Sym T → Finset ℤ → List (Sym T × Finset ℤ)
  | [], k, v => [(k, v)]
  | e :: ts, k, v => if e.1 = k then (k, v) :: ts else e :: symAssocSet ts k v

/-- The first pass of `NFA.rip` (nfa.py lines 109-119), one loop iteration
per transition entry: collect, for the ripped state, its outgoing
transition dict (self-loop-only entries are skipped; a self-loop occurring
beside other destinations is stored without the state itself) and the set
of non-epsilon self-loop labels. -/
def ripScanGo (state : ℤ) :
    TransList T → List (Sym T × Finset ℤ) × List (Sym T) →
    List (Sym T × Finset ℤ) × List (Sym T)
  | [], acc => acc
  | e :: ts, acc =>
    ripScanGo state ts
      (if e.1.1 = state then
        (if state ∈ e.2 then
          (if 1 < e.2.card then symAssocSet acc.1 e.1.2 (e.2.erase state) else acc.1,
           if e.1.2 ≠ none then listInsert acc.2 e.1.2 else acc.2)
        else (symAssocSet acc.1 e.1.2 e.2, acc.2))
      else acc)

/-- The first pass of `NFA.rip` (nfa.py lines 109-119). -/
def ripScan (ts : TransList T) (state : ℤ) :
    List (Sym T × Finset ℤ) × List (Sym T) :=
  ripScanGo state ts ([], [])

/-- The inner `for out_sym, out_dsts in outgoing_transitions.items()` loop
of `NFA.rip` (nfa.py lines 127-138) for one incoming edge, threading the
new transition dict and the receiver (whose alphabet the unsafe branch
extends); `.error recv` is the safe-mode early `return None`, carrying the
state of the receiver at that moment. -/
def ripInner (self_loops : List (Sym T)) (safe : Bool)
    (combiner : Sym T → List (Sym T) → Sym T → Sym T) (src : ℤ) (sym : Sym T) :
    List (Sym T × Finset ℤ) → TransList T × NFA T → Except (NFA T) (TransList T × NFA T)
  | [], acc => Except.ok acc
  | oe :: outgoing, (ts, recv) =>
    if safe then
      if sym ≠ none ∧ oe.1 ≠ none then Except.error recv
      else ripInner self_loops safe combiner src sym outgoing
        (transAdd ts (src, if sym = none then oe.1 else sym) oe.2, recv)
    else
      let new_sym := combiner sym self_loops oe.1
      let recv' :=
        if ¬ transHasKey ts (src, new_sym) ∧ new_sym ≠ none then
          { recv with alphabet :=
              match new_sym with
              | some t => listInsert recv.alphabet t
              | none => recv.alphabet }
        else recv
      ripInner self_loops safe combiner src sym outgoing
        (transAdd ts (src, new_sym) oe.2, recv')

/-- The second pass of `NFA.rip` (nfa.py lines 120-144), one loop iteration
per transition entry: rebuild the transition dict, replacing each edge
into the ripped state by its compositions with the outgoing edges, and
dropping edges whose destination set becomes empty; `.error recv` is the
safe-mode early `return None`. -/
def ripRebuildGo (state : ℤ) (safe : Bool)
    (combiner : Sym T → List (Sym T) → Sym T → Sym T)
    (outgoing : List (Sym T × Finset ℤ)) (self_loops : List (Sym T)) :
    TransList T → TransList T × NFA T → Except (NFA T) (TransList T × NFA T)
  | [], acc => Except.ok acc
  | e :: rest, (ts, recv) =>
    if e.1.1 = state then ripRebuildGo state safe combiner outgoing self_loops rest (ts, recv)
    else if state ∈ e.2 then
      match ripInner self_loops safe combiner e.1.1 e.1.2 outgoing (ts, recv) with
      | Except.error r => Except.error r
      | Except.ok (ts, recv) =>
        let dsts := e.2.erase state
        ripRebuildGo state safe combiner outgoing self_loops rest
          (if dsts = ∅ then ts else transAdd ts e.1 dsts, recv)
    else
      ripRebuildGo state safe combiner outgoing self_loops rest
        (if e.2 = ∅ then ts else transAdd ts e.1 e.2, recv)

/-- `NFA.rip` (nfa.py lines 101-147), in receiver-threading form.  The
outer `none` models the `ValueError` raised for the start or final state;
otherwise the result pairs the Python return value (`none` is the safe
mode's recoverable "no result") with the state of the receiver after the
call (the receiver's states and transitions are only reassigned after the
loops complete, nfa.py lines 145-146). -/
def NFA.rip (self : NFA T) (state : ℤ) (safe : Bool)
    (combiner : Sym T → List (Sym T) → Sym T → Sym T) :
    Option (Option (NFA T) × NFA T) :=
  if state = self.start_state ∨ state = self.final_state then none
  else
    let scan := ripScan self.transitions state
    match ripRebuildGo state safe combiner scan.1 scan.2 self.transitions ([], self) with
    | Except.error recv => some (none, recv)
    | Except.ok (ts, recv) =>
      let newSelf : NFA T :=
        { recv with states := recv.states.erase state, transitions := ts }
      some (some newSelf, newSelf)

/-! ### Claims C6 and C10: the safe mode of `rip` -/

/-- A property of dictionary keys holds somewhere after an assignment iff it
held somewhere before or holds of the assigned key. -/
theorem symAssocSet_exists_key (P : Sym T → Prop) :
    ∀ (l : List (Sym T × Finset ℤ)) (k : Sym T) (v : Finset ℤ),
      (∃ oe ∈ symAssocSet l k v, P oe.1) ↔ (∃ oe ∈ l, P oe.1) ∨ P k
  | [], k, v => by simp [symAssocSet]
  | e :: l, k, v => by
    by_cases he : e.1 = k
    · simp only [symAssocSet, if_pos he, List.mem_cons]
      constructor
      · rintro ⟨oe, hoe | hoe, hp⟩
        · exact Or.inr (by rw [hoe] at hp; exact hp)
        · exact Or.inl ⟨oe, Or.inr hoe, hp⟩
      · rintro (⟨oe, hoe | hoe, hp⟩ | hp)
        · exact ⟨(k, v), Or.inl rfl, by rw [hoe, he] at hp; exact hp⟩
        · exact ⟨oe, Or.inr hoe, hp⟩
        · exact ⟨(k, v), Or.inl rfl, hp⟩
    · simp only [symAssocSet, if_neg he, List.mem_cons]
      have ih := symAssocSet_exists_key P l k v
      constructor
      · rintro ⟨oe, hoe | hoe, hp⟩
        · exact Or.inl ⟨oe, Or.inl hoe, hp⟩
        · rcases ih.1 ⟨oe, hoe, hp⟩ with ⟨oe', hoe', hp'⟩ | hk
          · exact Or.inl ⟨oe', Or.inr hoe', hp'⟩
          · exact Or.inr hk
      · rintro (⟨oe, hoe | hoe, hp⟩ | hk)
        · exact ⟨oe, Or.inl hoe, hp⟩
        · rcases ih.2 (Or.inl ⟨oe, hoe, hp⟩) with ⟨oe', hoe', hp'⟩
          exact ⟨oe', Or.inr hoe', hp'⟩
        · rcases ih.2 (Or.inr hk) with ⟨oe', hoe', hp'⟩
          exact ⟨oe', Or.inr hoe', hp'⟩

/-- A property of all dictionary entries survives an assignment that
satisfies it. -/
theorem symAssocSet_forall (P : Sym T × Finset ℤ → Prop) :
    ∀ (l : List (Sym T × Finset ℤ)) (k : Sym T) (v : Finset ℤ),
      (∀ e ∈ l, P e) → P (k, v) → ∀ e ∈ symAssocSet l k v, P e
  | [], k, v, _, hkv => by simpa [symAssocSet] using hkv
  | e :: l, k, v, hl, hkv => by
    by_cases he : e.1 = k
    · simp only [symAssocSet, if_pos he, List.mem_cons]
      rintro e' (rfl | he')
      · exact hkv
      · exact hl e' (List.mem_cons_of_mem _ he')
    · simp only [symAssocSet, if_neg he, List.mem_cons]
      rintro e' (rfl | he')
      · exact hl e' (List.mem_cons_self _ _)
      · exact symAssocSet_forall P l k v (fun x hx => hl x (List.mem_cons_of_mem _ hx)) hkv e' he'

/-- Every outgoing-dict entry collected by the first pass of `rip` omits the
ripped state from its destinations. -/
theorem ripScanGo_no_state (q : ℤ) :
    ∀ (ts : TransList T) (acc : List (Sym T × Finset ℤ) × List (Sym T)),
      (∀ oe ∈ acc.1, q ∉ oe.2) → ∀ oe ∈ (ripScanGo q ts acc).1, q ∉ oe.2
  | [], acc, hacc => hacc
  | e :: ts, acc, hacc => by
    rw [ripScanGo]
    apply ripScanGo_no_state q ts
    by_cases h1 : e.1.1 = q
    · by_cases h2 : q ∈ e.2
      · by_cases h3 : 1 < e.2.card
        · simp only [if_pos h1, if_pos h2, if_pos h3]
          exact symAssocSet_forall _ _ _ _ hacc (Finset.not_mem_erase q e.2)
        · simp only [if_pos h1, if_pos h2, if_neg h3]
          exact hacc
      · simp only [if_pos h1, if_neg h2]
        exact symAssocSet_forall _ _ _ _ hacc h2
    · simp only [if_neg h1]
      exact hacc

/-- In a nonempty set that is not the singleton of `q`, some element
differs from `q`. -/
theorem exists_ne_of_card_or_not_mem (q : ℤ) (s : Finset ℤ) :
    (q ∈ s → 1 < s.card → ∃ r ∈ s, r ≠ q) ∧ (q ∉ s → s ≠ ∅ → ∃ r ∈ s, r ≠ q) := by
  constructor
  · intro hq hc
    rcases Finset.exists_ne_of_one_lt_card hc q with ⟨r, hr, hne⟩
    exact ⟨r, hr, hne⟩
  · intro hq hne
    rcases Finset.nonempty_iff_ne_empty.2 hne with ⟨r, hr⟩
    exact ⟨r, hr, fun he => hq (he ▸ hr)⟩

/-- The first pass of `rip` collects some non-epsilon outgoing label iff the
ripped state has a non-epsilon edge to a destination other than itself
(over a transition dict without empty destination sets). -/
theorem ripScanGo_exists_noneps (q : ℤ) :
    ∀ (ts : TransList T) (acc : List (Sym T × Finset ℤ) × List (Sym T)),
      (∀ e ∈ ts, e.2 ≠ ∅) →
      ((∃ oe ∈ (ripScanGo q ts acc).1, oe.1 ≠ none) ↔
        (∃ oe ∈ acc.1, oe.1 ≠ none) ∨
          ∃ e ∈ ts, e.1.1 = q ∧ e.1.2 ≠ none ∧ ∃ r ∈ e.2, r ≠ q)
  | [], acc, _ => by simp [ripScanGo]
  | e :: ts, acc, h0 => by
    have h0ts : ∀ x ∈ ts, x.2 ≠ ∅ := fun x hx => h0 x (List.mem_cons_of_mem _ hx)
    have h0e : e.2 ≠ ∅ := h0 e (List.mem_cons_self _ _)
    rw [ripScanGo]
    by_cases h1 : e.1.1 = q
    · by_cases h2 : q ∈ e.2
      · by_cases h3 : 1 < e.2.card
        · simp only [if_pos h1, if_pos h2, if_pos h3]
          rw [ripScanGo_exists_noneps q ts _ h0ts]
          dsimp only
          rw [symAssocSet_exists_key (fun x => x ≠ none)]
          have hr : ∃ r ∈ e.2, r ≠ q := (exists_ne_of_card_or_not_mem q e.2).1 h2 h3
          simp only [List.mem_cons]
          constructor
          · rintro ((ha | hk) | hts)
            · exact Or.inl ha
            · exact Or.inr ⟨e, Or.inl rfl, h1, hk, hr⟩
            · rcases hts with ⟨x, hx, hp⟩
              exact Or.inr ⟨x, Or.inr hx, hp⟩
          · rintro (ha | ⟨x, hx | hx, hp⟩)
            · exact Or.inl (Or.inl ha)
            · exact Or.inl (Or.inr (hx ▸ hp.2.1))
            · exact Or.inr ⟨x, hx, hp⟩
        · simp only [if_pos h1, if_pos h2, if_neg h3]
          rw [ripScanGo_exists_noneps q ts _ h0ts]
          dsimp only
          have hno : ¬ ∃ r ∈ e.2, r ≠ q := by
            rintro ⟨r, hr, hne⟩
            have : e.2 = {q} :=
              Finset.eq_singleton_iff_unique_mem.2
                ⟨h2, fun x hx => by
                  by_contra hxq
                  exact h3 (Finset.one_lt_card.2 ⟨x, hx, q, h2, hxq⟩)⟩
            rw [this] at hr
            exact hne (Finset.mem_singleton.1 hr)
          simp only [List.mem_cons]
          constructor
          · rintro (ha | ⟨x, hx, hp⟩)
            · exact Or.inl ha
            · exact Or.inr ⟨x, Or.inr hx, hp⟩
          · rintro (ha | ⟨x, hx | hx, hp⟩)
            · exact Or.inl ha
            · exact absurd (hx ▸ hp.2.2) hno
            · exact Or.inr ⟨x, hx, hp⟩
      · simp only [if_pos h1, if_neg h2]
        rw [ripScanGo_exists_noneps q ts _ h0ts]
        dsimp only
        rw [symAssocSet_exists_key (fun x => x ≠ none)]
        have hr : ∃ r ∈ e.2, r ≠ q := (exists_ne_of_card_or_not_mem q e.2).2 h2 h0e
        simp only [List.mem_cons]
        constructor
        · rintro ((ha | hk) | hts)
          · exact Or.inl ha
          · exact Or.inr ⟨e, Or.inl rfl, h1, hk, hr⟩
          · rcases hts with ⟨x, hx, hp⟩
            exact Or.inr ⟨x, Or.inr hx, hp⟩
        · rintro (ha | ⟨x, hx | hx, hp⟩)
          · exact Or.inl (Or.inl ha)
          · exact Or.inl (Or.inr (hx ▸ hp.2.1))
          · exact Or.inr ⟨x, hx, hp⟩
    · simp only [if_neg h1]
      rw [ripScanGo_exists_noneps q ts _ h0ts]
      simp only [List.mem_cons]
      constructor
      · rintro (ha | ⟨x, hx, hp⟩)
        · exact Or.inl ha
        · exact Or.inr ⟨x, Or.inr hx, hp⟩
      · rintro (ha | ⟨x, hx | hx, hp⟩)
        · exact Or.inl ha
        · exact absurd (hx ▸ hp.1) h1
        · exact Or.inr ⟨x, hx, hp⟩

/-- Entries of the rebuilt dict keep avoiding the ripped state under
`transAdd` of an avoiding entry. -/
theorem transAdd_avoid (q : ℤ) :
    ∀ (ts : TransList T) (k : ℤ × Sym T) (v : Finset ℤ),
      (∀ e ∈ ts, e.1.1 ≠ q ∧ q ∉ e.2) → k.1 ≠ q → q ∉ v →
      ∀ e ∈ transAdd ts k v, e.1.1 ≠ q ∧ q ∉ e.2
  | [], k, v, _, hk, hv => by
    simp only [transAdd, List.mem_singleton]
    rintro e rfl
    exact ⟨hk, hv⟩
  | x :: ts, k, v, hts, hk, hv => by
    by_cases hx : x.1 = k
    · simp only [transAdd, if_pos hx, List.mem_cons]
      rintro e (rfl | he)
      · refine ⟨hk, ?_⟩
        rw [Finset.mem_union]
        rintro (h | h)
        · exact (hts x (List.mem_cons_self _ _)).2 h
        · exact hv h
      · exact hts e (List.mem_cons_of_mem _ he)
    · simp only [transAdd, if_neg hx, List.mem_cons]
      rintro e (rfl | he)
      · exact hts e (List.mem_cons_self _ _)
      · exact transAdd_avoid q ts k v
          (fun y hy => hts y (List.mem_cons_of_mem _ hy)) hk hv e he

/-- In safe mode, if the pending incoming label is non-epsilon and some
outgoing label is non-epsilon, the inner loop of `rip` reports
`return None`, carrying the untouched receiver. -/
theorem ripInner_safe_error (loops : List (Sym T))
    (comb : Sym T → List (Sym T) → Sym T → Sym T) (src : ℤ) (sym : Sym T) :
    ∀ (outgoing : List (Sym T × Finset ℤ)) (ts : TransList T) (recv : NFA T),
      sym ≠ none → (∃ oe ∈ outgoing, oe.1 ≠ none) →
      ripInner loops true comb src sym outgoing (ts, recv) = Except.error recv
  | [], ts, recv, _, hex => by simp at hex
  | oe :: outgoing, ts, recv, hsym, hex => by
    by_cases ho : oe.1 = none
    · rw [ripInner, if_pos rfl, if_neg (by simp [ho])]
      rcases hex with ⟨x, hx, hxp⟩
      rcases List.mem_cons.1 hx with rfl | hx'
      · exact absurd ho hxp
      · exact ripInner_safe_error loops comb src sym outgoing _ recv hsym ⟨x, hx', hxp⟩
    · rw [ripInner, if_pos rfl, if_pos ⟨hsym, ho⟩]

/-- In safe mode, if the pending incoming label is epsilon or every
outgoing label is epsilon, the inner loop of `rip` succeeds, leaves the
receiver untouched, and only adds destination sets drawn from the
outgoing dict. -/
theorem ripInner_safe_ok (q : ℤ) (loops : List (Sym T))
    (comb : Sym T → List (Sym T) → Sym T → Sym T) (src : ℤ) (sym : Sym T)
    (hsrc : src ≠ q) :
    ∀ (outgoing : List (Sym T × Finset ℤ)) (ts : TransList T) (recv : NFA T),
      (∀ oe ∈ outgoing, q ∉ oe.2) →
      (sym = none ∨ ∀ oe ∈ outgoing, oe.1 = none) →
      (∀ e ∈ ts, e.1.1 ≠ q ∧ q ∉ e.2) →
      ∃ ts', ripInner loops true comb src sym outgoing (ts, recv) = Except.ok (ts', recv) ∧
        ∀ e ∈ ts', e.1.1 ≠ q ∧ q ∉ e.2
  | [], ts, recv, _, _, hts => ⟨ts, rfl, hts⟩
  | oe :: outgoing, ts, recv, hq, heps, hts => by
    have hcond : ¬ (sym ≠ none ∧ oe.1 ≠ none) := by
      rcases heps with h | h
      · simp [h]
      · simp [h oe (List.mem_cons_self _ _)]
    rw [ripInner, if_pos rfl, if_neg hcond]
    apply ripInner_safe_ok q loops comb src sym hsrc outgoing _ recv
      (fun x hx => hq x (List.mem_cons_of_mem _ hx))
      (by
        rcases heps with h | h
        · exact Or.inl h
        · exact Or.inr (fun x hx => h x (List.mem_cons_of_mem _ hx)))
    exact transAdd_avoid q ts _ _ hts hsrc (hq oe (List.mem_cons_self _ _))

/-- In safe mode the inner loop of `rip` never touches the receiver: both a
success and an early `return None` carry the receiver it was given. -/
theorem ripInner_safe_receiver (loops : List (Sym T))
    (comb : Sym T → List (Sym T) → Sym T → Sym T) (src : ℤ) (sym : Sym T) :
    ∀ (outgoing : List (Sym T × Finset ℤ)) (ts : TransList T) (recv : NFA T),
      (∀ ts' recv', ripInner loops true comb src sym outgoing (ts, recv) =
          Except.ok (ts', recv') → recv' = recv) ∧
      (∀ r, ripInner loops true comb src sym outgoing (ts, recv) = Except.error r → r = recv)
  | [], ts, recv => by
    constructor
    · intro ts' recv' h
      rw [ripInner] at h
      cases h
      rfl
    · intro r h
      rw [ripInner] at h
      cases h
  | oe :: outgoing, ts, recv => by
    constructor
    · intro ts' recv' h
      rw [ripInner, if_pos rfl] at h
      by_cases hc : sym ≠ none ∧ oe.1 ≠ none
      · rw [if_pos hc] at h
        cases h
      · rw [if_neg hc] at h
        exact (ripInner_safe_receiver loops comb src sym outgoing _ recv).1 ts' recv' h
    · intro r h
      rw [ripInner, if_pos rfl] at h
      by_cases hc : sym ≠ none ∧ oe.1 ≠ none
      · rw [if_pos hc] at h
        cases h
        rfl
      · rw [if_neg hc] at h
        exact (ripInner_safe_receiver loops comb src sym outgoing _ recv).2 r h

/-- In safe mode the rebuild pass of `rip` reports `return None` exactly
when some outgoing label is non-epsilon and some edge from another state
into the ripped state is non-epsilon; otherwise it succeeds and the
rebuilt dict never mentions the ripped state.  Either way the receiver is
carried unchanged. -/
theorem ripRebuildGo_safe_main (q : ℤ) (loops : List (Sym T))
    (comb : Sym T → List (Sym T) → Sym T → Sym T)
    (outgoing : List (Sym T × Finset ℤ)) (houtq : ∀ oe ∈ outgoing, q ∉ oe.2) :
    ∀ (l : TransList T) (ts : TransList T) (recv : NFA T),
      (∀ e ∈ ts, e.1.1 ≠ q ∧ q ∉ e.2) →
      (((∃ oe ∈ outgoing, oe.1 ≠ none) ∧
          ∃ e ∈ l, e.1.1 ≠ q ∧ e.1.2 ≠ none ∧ q ∈ e.2) →
        ripRebuildGo q true comb outgoing loops l (ts, recv) = Except.error recv) ∧
      (¬ ((∃ oe ∈ outgoing, oe.1 ≠ none) ∧
          ∃ e ∈ l, e.1.1 ≠ q ∧ e.1.2 ≠ none ∧ q ∈ e.2) →
        ∃ ts', ripRebuildGo q true comb outgoing loops l (ts, recv) = Except.ok (ts', recv) ∧
          ∀ e ∈ ts', e.1.1 ≠ q ∧ q ∉ e.2)
  | [], ts, recv, hts => by
    constructor
    · rintro ⟨-, x, hx, -⟩
      exact absurd hx (List.not_mem_nil x)
    · intro _
      exact ⟨ts, rfl, hts⟩
  | e :: l, ts, recv, hts => by
    have hcons : ∀ (P : (ℤ × Sym T) × Finset ℤ → Prop),
        (∃ x ∈ e :: l, P x) ↔ P e ∨ ∃ x ∈ l, P x := by
      intro P
      simp [List.mem_cons, or_and_right, exists_or]
    by_cases hsrc : e.1.1 = q
    · rw [ripRebuildGo, if_pos hsrc]
      have ih := ripRebuildGo_safe_main q loops comb outgoing houtq l ts recv hts
      constructor
      · intro hc
        apply ih.1
        refine ⟨hc.1, ?_⟩
        rcases (hcons _).1 hc.2 with hp | hex
        · exact absurd hsrc hp.1
        · exact hex
      · intro hc
        apply ih.2
        intro hc'
        exact hc ⟨hc'.1, (hcons _).2 (Or.inr hc'.2)⟩
    · by_cases hin : q ∈ e.2
      · rw [ripRebuildGo, if_neg hsrc, if_pos hin]
        by_cases hsym : e.1.2 = none
        · have heps : e.1.2 = none ∨ ∀ oe ∈ outgoing, oe.1 = none := Or.inl hsym
          rcases ripInner_safe_ok q loops comb e.1.1 e.1.2 hsrc outgoing ts recv
              houtq heps hts with ⟨ts1, hok, hts1⟩
          rw [hok]
          have hts2 : ∀ x ∈ (if e.2.erase q = ∅ then ts1
              else transAdd ts1 e.1 (e.2.erase q)), x.1.1 ≠ q ∧ q ∉ x.2 := by
            by_cases hemp : e.2.erase q = ∅
            · simpa [hemp] using hts1
            · simp only [if_neg hemp]
              exact transAdd_avoid q ts1 e.1 _ hts1 hsrc (Finset.not_mem_erase q e.2)
          have ih := ripRebuildGo_safe_main q loops comb outgoing houtq l _ recv hts2
          constructor
          · intro hc
            apply ih.1
            refine ⟨hc.1, ?_⟩
            rcases (hcons _).1 hc.2 with hp | hex
            · exact absurd hsym (by simpa using hp.2.1)
            · exact hex
          · intro hc
            apply ih.2
            intro hc'
            exact hc ⟨hc'.1, (hcons _).2 (Or.inr hc'.2)⟩
        · by_cases hout : ∃ oe ∈ outgoing, oe.1 ≠ none
          · rw [ripInner_safe_error loops comb e.1.1 e.1.2 outgoing ts recv hsym hout]
            constructor
            · intro _
              rfl
            · intro hc
              exact absurd ⟨hout, (hcons _).2 (Or.inl ⟨hsrc, hsym, hin⟩)⟩ hc
          · have hepsout : ∀ oe ∈ outgoing, oe.1 = none := by
              intro oe hoe
              by_contra hne
              exact hout ⟨oe, hoe, hne⟩
            rcases ripInner_safe_ok q loops comb e.1.1 e.1.2 hsrc outgoing ts recv
                houtq (Or.inr hepsout) hts with ⟨ts1, hok, hts1⟩
            rw [hok]
            have hts2 : ∀ x ∈ (if e.2.erase q = ∅ then ts1
                else transAdd ts1 e.1 (e.2.erase q)), x.1.1 ≠ q ∧ q ∉ x.2 := by
              by_cases hemp : e.2.erase q = ∅
              · simpa [hemp] using hts1
              · simp only [if_neg hemp]
                exact transAdd_avoid q ts1 e.1 _ hts1 hsrc (Finset.not_mem_erase q e.2)
            have ih := ripRebuildGo_safe_main q loops comb outgoing houtq l _ recv hts2
            constructor
            · rintro ⟨hout', -⟩
              exact absurd hout' hout
            · intro hc
              apply ih.2
              rintro ⟨hout', -⟩
              exact hout hout'
      · rw [ripRebuildGo, if_neg hsrc, if_neg hin]
        have hts2 : ∀ x ∈ (if e.2 = ∅ then ts else transAdd ts e.1 e.2),
            x.1.1 ≠ q ∧ q ∉ x.2 := by
          by_cases hemp : e.2 = ∅
          · simpa [hemp] using hts
          · simp only [if_neg hemp]
            exact transAdd_avoid q ts e.1 e.2 hts hsrc hin
        have ih := ripRebuildGo_safe_main q loops comb outgoing houtq l _ recv hts2
        constructor
        · intro hc
          apply ih.1
          refine ⟨hc.1, ?_⟩
          rcases (hcons _).1 hc.2 with hp | hex
          · exact absurd hp.2.2 hin
          · exact hex
        · intro hc
          apply ih.2
          intro hc'
          exact hc ⟨hc'.1, (hcons _).2 (Or.inr hc'.2)⟩

/-- In safe mode the rebuild pass of `rip` never touches the receiver. -/
theorem ripRebuildGo_safe_receiver (q : ℤ) (loops : List (Sym T))
    (comb : Sym T → List (Sym T) → Sym T → Sym T)
    (outgoing : List (Sym T × Finset ℤ)) :
    ∀ (l : TransList T) (ts : TransList T) (recv : NFA T),
      (∀ ts' recv', ripRebuildGo q true comb outgoing loops l (ts, recv) =
          Except.ok (ts', recv') → recv' = recv) ∧
      (∀ r, ripRebuildGo q true comb outgoing loops l (ts, recv) = Except.error r → r = recv)
  | [], ts, recv => by
    constructor
    · intro ts' recv' h
      rw [ripRebuildGo] at h
      cases h
      rfl
    · intro r h
      rw [ripRebuildGo] at h
      cases h
  | e :: l, ts, recv => by
    rw [ripRebuildGo]
    by_cases hsrc : e.1.1 = q
    · rw [if_pos hsrc]
      exact ripRebuildGo_safe_receiver q loops comb outgoing l ts recv
    · rw [if_neg hsrc]
      by_cases hin : q ∈ e.2
      · rw [if_pos hin]
        constructor
        · intro ts' recv' h
          rcases hri : ripInner loops true comb e.1.1 e.1.2 outgoing (ts, recv) with r | p
          · rw [hri] at h
            cases h
          · rw [hri] at h
            have h1 : p.2 = recv :=
              (ripInner_safe_receiver loops comb e.1.1 e.1.2 outgoing ts recv).1 p.1 p.2
                (by rw [hri])
            have h2 := (ripRebuildGo_safe_receiver q loops comb outgoing l _ p.2).1 ts' recv'
              (by rw [← h])
            rw [h2, h1]
        · intro r h
          rcases hri : ripInner loops true comb e.1.1 e.1.2 outgoing (ts, recv) with r0 | p
          · rw [hri] at h
            cases h
            exact (ripInner_safe_receiver loops comb e.1.1 e.1.2 outgoing ts recv).2 _ hri
          · rw [hri] at h
            have h1 : p.2 = recv :=
              (ripInner_safe_receiver loops comb e.1.1 e.1.2 outgoing ts recv).1 p.1 p.2
                (by rw [hri])
            have h2 := (ripRebuildGo_safe_receiver q loops comb outgoing l _ p.2).2 r
              (by rw [← h])
            rw [h2, h1]
      · rw [if_neg hin]
        exact ripRebuildGo_safe_receiver q loops comb outgoing l _ recv

/-- The counterexample automaton for C6: state 1 has a non-epsilon incoming
edge from state 0 and a non-epsilon outgoing edge — a pure self-loop. -/
def nfaSelfLoop : NFA Char :=
  ⟨{0, 1, 2}, ['a'], [((0, some 'a'), {1}), ((1, some 'a'), {1})], 0, 2⟩

/-- A trivial rip combiner for concrete instances (the safe mode never
calls the combiner). -/
def keepFirstCombiner : Sym Char → List (Sym Char) → Sym Char → Sym Char :=
  fun a _ _ => a

/-- C6 counterexample: in `nfaSelfLoop`, state 1 has both an incoming
non-epsilon edge and an outgoing non-epsilon edge, yet `rip(1, safe=True)`
does not return "no result" — it returns an automaton (the self-loop label
is silently dropped). -/
theorem C6_counterexample_pure_self_loop :
    (∃ e ∈ nfaSelfLoop.transitions, e.1.2 ≠ none ∧ (1 : ℤ) ∈ e.2) ∧
    (∃ e ∈ nfaSelfLoop.transitions, e.1.1 = (1 : ℤ) ∧ e.1.2 ≠ none) ∧
    (nfaSelfLoop.rip 1 true keepFirstCombiner).map (fun p => p.1.isSome) = some true := by
  decide

/-- C6 (amended): for a non-start, non-final state `q` of a well-formed
automaton, `rip(q, safe=True)` returns "no result" exactly when `q` has a
non-epsilon incoming edge from another state and a non-epsilon outgoing
edge to another state (self-loops do not count on either side: pure
self-loop labels are silently dropped); in every other case it returns a
valid automaton from which `q` has been eliminated — removed from the
state set, mentioned by no transition, with the distinguished states
preserved. -/
theorem C6_amended_rip_safe (A : NFA T) (q : ℤ)
    (comb : Sym T → List (Sym T) → Sym T → Sym T)
    (hs : q ≠ A.start_state) (hf : q ≠ A.final_state)
    (hstart : A.start_state ∈ A.states) (hfin : A.final_state ∈ A.states)
    (h0 : ∀ e ∈ A.transitions, e.2 ≠ ∅) :
    ∃ res, A.rip q true comb = some res ∧
      (res.1 = none ↔
        (∃ e ∈ A.transitions, e.1.1 ≠ q ∧ e.1.2 ≠ none ∧ q ∈ e.2) ∧
        (∃ e ∈ A.transitions, e.1.1 = q ∧ e.1.2 ≠ none ∧ ∃ r ∈ e.2, r ≠ q)) ∧
      ∀ A', res.1 = some A' →
        A'.states = A.states.erase q ∧
        (∀ e ∈ A'.transitions, e.1.1 ≠ q ∧ q ∉ e.2) ∧
        A'.start_state = A.start_state ∧ A'.final_state = A.final_state ∧
        A'.start_state ∈ A'.states ∧ A'.final_state ∈ A'.states := by
  have hcond : ¬ (q = A.start_state ∨ q = A.final_state) := by
    rintro (h | h)
    · exact hs h
    · exact hf h
  have houtq : ∀ oe ∈ (ripScan A.transitions q).1, q ∉ oe.2 :=
    ripScanGo_no_state q A.transitions ([], []) (by intro oe h; exact absurd h (List.not_mem_nil oe))
  have hscan := ripScanGo_exists_noneps q A.transitions ([], []) h0
  simp only [List.not_mem_nil, false_and, exists_const, exists_false, false_or] at hscan
  have main := ripRebuildGo_safe_main q (ripScan A.transitions q).2 comb
    (ripScan A.transitions q).1 houtq A.transitions [] A
    (by intro e h; exact absurd h (List.not_mem_nil e))
  by_cases hc : (∃ oe ∈ (ripScan A.transitions q).1, oe.1 ≠ none) ∧
      ∃ e ∈ A.transitions, e.1.1 ≠ q ∧ e.1.2 ≠ none ∧ q ∈ e.2
  · refine ⟨(none, A), ?_, ?_, ?_⟩
    · simp only [NFA.rip, if_neg hcond]
      rw [main.1 hc]
    · simp only [true_iff]
      exact ⟨hc.2, hscan.1 hc.1⟩
    · intro A' hA'
      cases hA'
  · rcases main.2 hc with ⟨ts', hok, hts'⟩
    refine ⟨(some ⟨A.states.erase q, A.alphabet, ts', A.start_state, A.final_state⟩,
      ⟨A.states.erase q, A.alphabet, ts', A.start_state, A.final_state⟩), ?_, ?_, ?_⟩
    · simp only [NFA.rip, if_neg hcond]
      rw [hok]
    · simp only [Option.some_ne_none, false_iff]
      intro hboth
      exact hc ⟨hscan.2 hboth.2, hboth.1⟩
    · rintro A' hA'
      cases hA'
      refine ⟨rfl, hts', rfl, rfl, ?_, ?_⟩
      · exact Finset.mem_erase.2 ⟨fun h => hs h.symm, hstart⟩
      · exact Finset.mem_erase.2 ⟨fun h => hf h.symm, hfin⟩

/-- Witness for C6: the amended theorem applied to a concrete automaton
where state 1 has a non-epsilon edge in from 0 and out to 2, so the safe
rip reports "no result". -/
theorem C6_witness_chain :
    ∃ res,
      (⟨{0, 1, 2}, ['a', 'b'], [((0, some 'a'), {1}), ((1, some 'b'), {2})], 0, 2⟩ :
        NFA Char).rip 1 true keepFirstCombiner = some res ∧
      (res.1 = none ↔
        (∃ e ∈ (⟨{0, 1, 2}, ['a', 'b'], [((0, some 'a'), {1}), ((1, some 'b'), {2})], 0, 2⟩ :
            NFA Char).transitions, e.1.1 ≠ 1 ∧ e.1.2 ≠ none ∧ (1 : ℤ) ∈ e.2) ∧
        (∃ e ∈ (⟨{0, 1, 2}, ['a', 'b'], [((0, some 'a'), {1}), ((1, some 'b'), {2})], 0, 2⟩ :
            NFA Char).transitions, e.1.1 = 1 ∧ e.1.2 ≠ none ∧ ∃ r ∈ e.2, r ≠ 1)) ∧
      ∀ A', res.1 = some A' →
        A'.states = (⟨{0, 1, 2}, ['a', 'b'], [((0, some 'a'), {1}), ((1, some 'b'), {2})], 0, 2⟩ :
            NFA Char).states.erase 1 ∧
        (∀ e ∈ A'.transitions, e.1.1 ≠ 1 ∧ (1 : ℤ) ∉ e.2) ∧
        A'.start_state = 0 ∧ A'.final_state = 2 ∧
        A'.start_state ∈ A'.states ∧ A'.final_state ∈ A'.states :=
  C6_amended_rip_safe _ 1 keepFirstCombiner (by decide) (by decide) (by decide) (by decide)
    (by decide)

/-- C10: whenever safe-mode `rip` returns "no result", the receiver is left
exactly as it was before the call. -/
theorem C10_rip_none_receiver_unchanged (A : NFA T) (q : ℤ)
    (comb : Sym T → List (Sym T) → Sym T → Sym T) (recv : NFA T)
    (h : A.rip q true comb = some (none, recv)) : recv = A := by
  simp only [NFA.rip] at h
  by_cases hc : q = A.start_state ∨ q = A.final_state
  · rw [if_pos hc] at h
    cases h
  · rw [if_neg hc] at h
    rcases hr : ripRebuildGo q true comb (ripScan A.transitions q).1
        (ripScan A.transitions q).2 A.transitions ([], A) with r | p
    · rw [hr] at h
      simp only [Option.some.injEq, Prod.mk.injEq] at h
      rw [← h.2]
      exact (ripRebuildGo_safe_receiver q (ripScan A.transitions q).2 comb
        (ripScan A.transitions q).1 A.transitions [] A).2 r hr
    · rw [hr] at h
      simp at h

/-- Witness for C10: a concrete safe rip that fails recoverably, on which
the theorem applies and confirms the receiver is returned unchanged. -/
theorem C10_witness_concrete :
    (⟨{0, 1, 2}, ['a', 'b'], [((0, some 'a'), {1}), ((1, some 'b'), {2})], 0, 2⟩ :
        NFA Char).rip 1 true keepFirstCombiner =
      some (none,
        ⟨{0, 1, 2}, ['a', 'b'], [((0, some 'a'), {1}), ((1, some 'b'), {2})], 0, 2⟩) ∧
    (⟨{0, 1, 2}, ['a', 'b'], [((0, some 'a'), {1}), ((1, some 'b'), {2})], 0, 2⟩ : NFA Char) =
      ⟨{0, 1, 2}, ['a', 'b'], [((0, some 'a'), {1}), ((1, some 'b'), {2})], 0, 2⟩ :=
  ⟨by decide, C10_rip_none_receiver_unchanged _ 1 keepFirstCombiner _ (by decide)⟩

/-! ### Claim C5: what a minimization split stores in place -/

/-- The classification loop computes exactly the two filters of the cell:
the states whose `sym`-transition lands in the splitter, and the rest, in
cell order. -/
theorem splitCellGo_eq_filter (D : DFA T) (cp : List ℤ) (sym : T) :
    ∀ (part : List ℤ) (p : List ℤ × List ℤ),
      splitCellGo D cp sym part p =
        (p.1 ++ part.filter (goesToSplitter D cp sym),
         p.2 ++ part.filter (fun s => !goesToSplitter D cp sym s))
  | [], p => by simp [splitCellGo]
  | state :: part, p => by
    rw [splitCellGo]
    rcases hd : dtransLookup D.transitions (state, sym) with _ | dst
    · have hg : goesToSplitter D cp sym state = false := by
        rw [goesToSplitter, hd]
      rw [splitCellGo_eq_filter D cp sym part _]
      simp [List.filter_cons, hg]
    · by_cases hm : dst ∈ cp
      · have hg : goesToSplitter D cp sym state = true := by
          rw [goesToSplitter, hd]
          simpa using hm
        dsimp only
        rw [if_pos hm, splitCellGo_eq_filter D cp sym part _]
        simp [List.filter_cons, hg]
      · have hg : goesToSplitter D cp sym state = false := by
          rw [goesToSplitter, hd]
          simpa using hm
        dsimp only
        rw [if_neg hm, splitCellGo_eq_filter D cp sym part _]
        simp [List.filter_cons, hg]

/-- Modelled from the spec claim's words: the split it describes, except
that the piece stored back at the split index is `to_curr` — the states
that transition into the splitter — and the appended piece is the
complement, with the smaller-half comparison appearing only in the
worklist rule.  The amended C5 states that the refinement step equals
this description whenever it performs a split. -/
def refineSpec (D : DFA T) (cp : List ℤ) (sym : T) (st : MinState) (index : ℕ) : MinState :=
  let part := st.parts.getD index []
  let tc := part.filter (goesToSplitter D cp sym)
  let ntc := part.filter (fun s => !goesToSplitter D cp sym s)
  { parts := st.parts.set index tc ++ [ntc]
    finals := if index ∈ st.finals then st.finals ∪ {st.parts.length} else st.finals
    wl := if index ∈ st.wl ∨ ntc.length < tc.length then st.parts.length :: st.wl
          else index :: st.wl
    events := st.events ++ [⟨index, part, tc, ntc⟩] }

/-- Whenever the refinement step changes the state at all, it performs the
split described by `refineSpec`: `to_curr` replaces the cell at the split
index and `not_to_curr` is appended, with both pieces nonempty. -/
theorem refineIndex_eq_spec (D : DFA T) (cp : List ℤ) (sym : T) (st : MinState) (index : ℕ)
    (hchange : refineIndex D cp sym st index ≠ st) :
    refineIndex D cp sym st index = refineSpec D cp sym st index ∧
    (st.parts.getD index []).filter (goesToSplitter D cp sym) ≠ [] ∧
    (st.parts.getD index []).filter (fun s => !goesToSplitter D cp sym s) ≠ [] := by
  have hsplit : splitCell D cp sym (st.parts.getD index []) =
      ((st.parts.getD index []).filter (goesToSplitter D cp sym),
       (st.parts.getD index []).filter (fun s => !goesToSplitter D cp sym s)) := by
    rw [splitCell, splitCellGo_eq_filter]
    simp
  by_cases hc : (splitCell D cp sym (st.parts.getD index [])).1 = [] ∨
      (splitCell D cp sym (st.parts.getD index [])).2 = []
  · exact absurd (by rw [refineIndex, if_pos hc]) hchange
  · rw [hsplit] at hc
    push_neg at hc
    dsimp only at hc
    refine ⟨?_, hc.1, hc.2⟩
    rw [refineIndex, hsplit]
    dsimp only
    rw [if_neg (not_or.2 ⟨hc.1, hc.2⟩)]
    rw [refineSpec]
    simp only [List.length_append, List.length_set, List.length_cons,
      List.length_nil, Nat.add_sub_cancel]

/-- The two pieces of a split are disjoint and together a permutation of
the original cell. -/
theorem split_pieces_partition (D : DFA T) (cp : List ℤ) (sym : T) (part : List ℤ) :
    (∀ x ∈ part.filter (goesToSplitter D cp sym),
      x ∉ part.filter (fun s => !goesToSplitter D cp sym s)) ∧
    List.Perm
      (part.filter (goesToSplitter D cp sym) ++
        part.filter (fun s => !goesToSplitter D cp sym s)) part := by
  constructor
  · intro x hx hx'
    rcases List.mem_filter.1 hx with ⟨-, hp⟩
    rcases List.mem_filter.1 hx' with ⟨-, hq⟩
    rw [hp] at hq
    cases hq
  · exact List.filter_append_perm _ part

/-- `refineIndex` preserves a property of all logged events if every event
it logs satisfies it. -/
theorem refineIndex_events_preserve (D : DFA T) (cp : List ℤ) (sym : T)
    (st : MinState) (index : ℕ)
    (P : SplitEvent → Prop) (hst : ∀ ev ∈ st.events, P ev)
    (hnew : ∀ part tc ntc,
      tc = part.filter (goesToSplitter D cp sym) →
      ntc = part.filter (fun s => !goesToSplitter D cp sym s) →
      tc ≠ [] → ntc ≠ [] → P ⟨index, part, tc, ntc⟩) :
    ∀ ev ∈ (refineIndex D cp sym st index).events, P ev := by
  by_cases hchange : refineIndex D cp sym st index = st
  · rw [hchange]
    exact hst
  · rcases refineIndex_eq_spec D cp sym st index hchange with ⟨heq, h1, h2⟩
    rw [heq, refineSpec]
    intro ev hev
    simp only [List.mem_append, List.mem_singleton] at hev
    rcases hev with hev | rfl
    · exact hst ev hev
    · exact hnew _ _ _ rfl rfl h1 h2

/-- Folding preserves an invariant preserved by each step. -/
theorem foldl_preserve {α β : Type _} (f : β → α → β) (P : β → Prop)
    (hstep : ∀ b a, P b → P (f b a)) : ∀ (l : List α) (b : β), P b → P (l.foldl f b)
  | [], _, hb => hb
  | a :: l, b, hb => foldl_preserve f P hstep l (f b a) (hstep b a hb)

/-- Every event logged by a split is a genuine split: nonempty disjoint
pieces that together permute the cell, with `to_curr` the piece recorded
as kept in place. -/
def goodEvent (ev : SplitEvent) : Prop :=
  ev.kept ≠ [] ∧ ev.appended ≠ [] ∧ (∀ x ∈ ev.kept, x ∉ ev.appended) ∧
    List.Perm (ev.kept ++ ev.appended) ev.cell

/-- The refinement worklist loop only logs genuine splits. -/
theorem minimizeLoop_events (D : DFA T) :
    ∀ (fuel : ℕ) (st : MinState) (res : MinState),
      minimizeLoop D fuel st = some res →
      (∀ ev ∈ st.events, goodEvent ev) → ∀ ev ∈ res.events, goodEvent ev
  | 0, st, res, h, _ => by cases h
  | fuel + 1, st, res, h, hst => by
    rw [minimizeLoop] at h
    rcases hwl : st.wl with _ | ⟨i, rest⟩
    · rw [hwl] at h
      cases h
      exact hst
    · rw [hwl] at h
      dsimp only at h
      refine minimizeLoop_events D fuel _ res h ?_
      exact foldl_preserve _ (fun s => ∀ ev ∈ s.events, goodEvent ev)
        (fun b' sym hb' =>
          foldl_preserve _ (fun s => ∀ ev ∈ s.events, goodEvent ev)
            (fun b'' idx hb'' =>
              refineIndex_events_preserve D (st.parts.getD i []) sym b'' idx _ hb''
                (fun part tc ntc htc hntc h1 h2 => by
                  subst htc
                  subst hntc
                  have hp := split_pieces_partition D (st.parts.getD i []) sym part
                  exact ⟨h1, h2, hp.1, hp.2⟩))
            (List.range b'.parts.length) b' hb')
        D.alphabet ⟨st.parts, st.finals, rest, st.events⟩ hst

/-- Events pass unchanged out of `minimizeCore`. -/
theorem minimizeCore_events (D : DFA T) (res : MinimizeResult T)
    (h : D.minimizeCore = some res) : ∀ ev ∈ res.events, goodEvent ev := by
  rw [DFA.minimizeCore] at h
  rcases hr : reachLoop D (2 * D.states.card + 2) [D.start_state]
      (if D.start_state ∈ D.final_states then (∅, {D.start_state})
       else ({D.start_state}, ∅)) with _ | reach
  · rw [hr] at h
    cases h
  · rw [hr] at h
    simp only [Option.bind_eq_bind, Option.some_bind] at h
    by_cases hrf : reach.2 = ∅
    · rw [if_pos hrf] at h
      cases h
      intro ev hev
      exact absurd hev (List.not_mem_nil ev)
    · rw [if_neg hrf] at h
      rcases hm : minimizeLoop D (2 * (reach.1 ∪ reach.2).card + 3)
          ⟨if reach.1 = ∅ then [sortFin reach.2] else [sortFin reach.2, sortFin reach.1],
            {0}, (List.range
              (if reach.1 = ∅ then [sortFin reach.2]
               else [sortFin reach.2, sortFin reach.1]).length).reverse, []⟩ with _ | mres
      · rw [hm] at h
        cases h
      · rw [hm] at h
        simp only [Option.some_bind] at h
        have hev := minimizeLoop_events D _ _ _ hm
          (by intro ev hev; exact absurd hev (List.not_mem_nil ev))
        cases h
        exact hev

/-- C5 (amended): a split performed by the refinement loop of
`DFA.minimize` stores `to_curr` — the sub-cell of states whose transition
on the splitting symbol lands in the splitter — back at the existing
index, regardless of the two pieces' sizes, and appends the complementary
sub-cell as the new partition; the smaller-half comparison only selects
which index is re-enqueued.  The two pieces are always nonempty, disjoint,
and together a permutation of the split cell, in every split logged by any
run of `minimize`. -/
theorem C5_amended_split_stores_to_curr :
    (∀ (D : DFA T) (cp : List ℤ) (sym : T) (st : MinState) (index : ℕ),
      refineIndex D cp sym st index ≠ st →
      refineIndex D cp sym st index = refineSpec D cp sym st index ∧
      (st.parts.getD index []).filter (goesToSplitter D cp sym) ≠ [] ∧
      (st.parts.getD index []).filter (fun s => !goesToSplitter D cp sym s) ≠ []) ∧
    (∀ (D : DFA T) (cp : List ℤ) (sym : T) (part : List ℤ),
      (∀ x ∈ part.filter (goesToSplitter D cp sym),
        x ∉ part.filter (fun s => !goesToSplitter D cp sym s)) ∧
      List.Perm (part.filter (goesToSplitter D cp sym) ++
        part.filter (fun s => !goesToSplitter D cp sym s)) part) ∧
    (∀ (D : DFA T) (res : MinimizeResult T), D.minimizeCore = some res →
      ∀ ev ∈ res.events, goodEvent ev) :=
  ⟨refineIndex_eq_spec, fun D cp sym part => split_pieces_partition D cp sym part,
    minimizeCore_events⟩

/-- The chain DFA on which the very first split keeps the larger piece in
place. -/
def dfaChain : DFA Char :=
  ⟨{0, 1, 2, 3}, ['a'],
    [((0, 'a'), 1), ((1, 'a'), 2), ((2, 'a'), 3), ((3, 'a'), 3)], 0, {3}⟩

/-- C5 counterexample: minimizing `dfaChain` performs a split whose
in-place piece (`kept`, which is `to_curr` by the amended theorem) is
strictly larger than the appended piece — the first logged split keeps
`[0, 1]` in place and appends `[2]` — so the partition cell is not
replaced by the smaller of the two pieces. -/
theorem C5_counterexample_larger_piece_in_place :
    dfaChain.minimizeCore.map
        (fun res => res.events.any (fun ev => ev.appended.length < ev.kept.length)) =
      some true ∧
    dfaChain.minimizeCore.map (fun res => res.events.head?) =
      some (some ⟨1, [0, 1, 2], [0, 1], [2]⟩) := by
  decide

/-- The minimization state just before the first split of `dfaChain`. -/
def stChain0 : MinState := ⟨[[3], [0, 1, 2]], {0}, [0], []⟩

/-- Witness for C5: the amended theorem applied to the concrete first split
of `dfaChain`. -/
theorem C5_witness_first_split :
    refineIndex dfaChain [0, 1, 2] 'a' stChain0 1 = refineSpec dfaChain [0, 1, 2] 'a' stChain0 1 ∧
    (stChain0.parts.getD 1 []).filter (goesToSplitter dfaChain [0, 1, 2] 'a') ≠ [] ∧
    (stChain0.parts.getD 1 []).filter
      (fun s => !goesToSplitter dfaChain [0, 1, 2] 'a' s) ≠ [] :=
  C5_amended_split_stores_to_curr.1 dfaChain [0, 1, 2] 'a' stChain0 1 (by decide)

/-! ### `distance.py`: the Wagner correction table (claims C2 and C3) -/

/-- Path costs: number of literal-symbol edges, `⊤` = `math.inf`. -/
abbrev Cost := WithTop ℕ

/-- Python `min` of two 2-tuples of costs (lexicographic; ties keep the
first argument). -/
def pairMin (a b : Cost × Cost) : Cost × Cost :=
  if b.1 < a.1 ∨ (b.1 = a.1 ∧ b.2 < a.2) then b else a

/-- Componentwise addition of cost pairs. -/
def pairAdd (a b : Cost × Cost) : Cost × Cost :=
  (a.1 + b.1, a.2 + b.2)

/-- Python `min` of two (cost, predecessor-state) tuples (lexicographic;
ties keep the first argument; `⊤` in the second slot is the float `inf`
placeholder of the initial `min_val`). -/
def entryMin (a b : Cost × WithTop ℤ) : Cost × WithTop ℤ :=
  if b.1 < a.1 ∨ (b.1 = a.1 ∧ b.2 < a.2) then b else a

/-- `path_lengths - included` (distance.py line 75): truncated subtraction
of a boolean, leaving `inf` fixed. -/
def costSub (a : Cost) (n : ℕ) : Cost :=
  match a with
  | none => none
  | some m => some (m - n)

/-- The initialization of the all-pairs table (distance.py lines 18-27):
an epsilon edge costs `(0, 1)`, otherwise a symbol edge costs `(1, 0)`,
otherwise `inf`. -/
def pathInit (A : NFA T) (st en : ℤ) : Cost × Cost :=
  if en ∈ transLookup A.transitions (st, none) then (0, 1)
  else if A.alphabet.any (fun sym => decide (en ∈ transLookup A.transitions (st, some sym)))
  then (1, 0)
  else (⊤, ⊤)

/-- The initialization of `included_syms` (distance.py lines 17, 26):
true only when the pair was initialized from a `sym` edge. -/
def includedInit (A : NFA T) (st en : ℤ) (sym : T) : Bool :=
  ¬ en ∈ transLookup A.transitions (st, none) ∧
    en ∈ transLookup A.transitions (st, some sym)

/-- One Floyd-Warshall pivot step over costs and the per-symbol
`included_syms` tracking (distance.py lines 28-46), both computed from the
tables before the pivot. -/
def fwStep (k : ℤ) (acc : (ℤ → ℤ → Cost × Cost) × (ℤ → ℤ → T → Bool)) :
    (ℤ → ℤ → Cost × Cost) × (ℤ → ℤ → T → Bool) :=
  (fun s e => pairMin (acc.1 s e) (pairAdd (acc.1 s k) (acc.1 k e)),
   fun s e sym =>
    let current := acc.1 s e
    let thru := pairAdd (acc.1 s k) (acc.1 k e)
    if current.1 < thru.1 ∨ (current.1 = ⊤ ∧ thru.1 = ⊤) then acc.2 s e sym
    else if thru.1 < current.1 then acc.2 s k sym || acc.2 k e sym
    else acc.2 s e sym || acc.2 s k sym || acc.2 k e sym)

/-- The Floyd-Warshall relaxation over all states as pivots (distance.py
lines 28-46). -/
def fwAll (A : NFA T) : (ℤ → ℤ → Cost × Cost) × (ℤ → ℤ → T → Bool) :=
  (sortFin A.states).foldl (fun acc k => fwStep k acc) (pathInit A, includedInit A)

/-- The edge cost of the string-position dynamic program (distance.py
lines 72-75). -/
def edgeCost (pl : ℤ → ℤ → Cost × Cost) (inc : ℤ → ℤ → T → Bool) (src st : ℤ) (sym : T) :
    Cost :=
  if (pl src st).1 = 0 then 1
  else costSub (pl src st).1 (if inc src st sym then 1 else 0)

/-- The dynamic-programming table: per state, the list of
(cost, predecessor) entries indexed by string-prefix length. -/
abbrev DistTable := List (ℤ × List (Cost × WithTop ℤ))

/-- `table[state]` (Python dict lookup; `none` is a `KeyError`). -/
def tlookup (table : DistTable) (st : ℤ) : Option (List (Cost × WithTop ℤ)) :=
  (table.find? (fun e => decide (e.1 = st))).map (·.2)

/-- The initial column of the table (distance.py lines 62-65): cost 0 at
the start state, else the all-pairs cost from the start state, with the
start state as the stored predecessor. -/
def distInit (A : NFA T) (pl : ℤ → ℤ → Cost × Cost) : DistTable :=
  (sortFin A.states).map (fun st =>
    (st, [(if st = A.start_state then 0 else (pl A.start_state st).1,
      ((A.start_state : ℤ) : WithTop ℤ))]))

/-- The inner minimization of the dynamic program (distance.py lines
69-82): the best (cost, predecessor) over all source states, starting
from the `(inf, inf)` placeholder. -/
def distMin (A : NFA T) (pl : ℤ → ℤ → Cost × Cost) (inc : ℤ → ℤ → T → Bool)
    (table : DistTable) (ln : ℕ) (sym : T) (st : ℤ) : Cost × WithTop ℤ :=
  (sortFin A.states).foldl (fun mv src =>
    entryMin mv
      ((((tlookup table src).getD []).getD ln (⊤, ⊤)).1 + edgeCost pl inc src st sym,
        ((src : ℤ) : WithTop ℤ))) (⊤, ⊤)

/-- One input-symbol step of the dynamic program (distance.py lines
67-83): append a new (cost, predecessor) entry for every state, computed
from column `ln` of the table before the step. -/
def distStep (A : NFA T) (pl : ℤ → ℤ → Cost × Cost) (inc : ℤ → ℤ → T → Bool)
    (table : DistTable) (ln : ℕ) (sym : T) : DistTable :=
  table.map (fun ent => (ent.1, ent.2 ++ [distMin A pl inc table ln sym ent.1]))

/-- `distance_table` (distance.py lines 14-115), without the debug
printing (which cannot fail): the all-pairs relaxation followed by the
per-position dynamic program. -/
def distance_table (A : NFA T) (s : List T) : DistTable :=
  let fw := fwAll A
  s.enum.foldl (fun table lsym => distStep A fw.1 fw.2 table lsym.1 lsym.2)
    (distInit A fw.1)

/-- The correction distance read off the table: the cost entry of the
final state at column `len(s)` — the quantity the spec calls the
correction distance of `s`. -/
def correction_distance (A : NFA T) (s : List T) : Cost :=
  ((((tlookup (distance_table A s) A.final_state).getD []).getD s.length (⊤, ⊤))).1

/-- The backtracking loop of `update_nfa` (distance.py lines 123-131), one
iteration per column from `i` down to 0: read the stored predecessor, add
a transition labelled with the consumed symbol (epsilon at column 0), and
continue from the predecessor.  `none` models the Python failure paths: a
`KeyError` on a missing or `inf` table index, and — at column 0 — the
`IndexError` of the debug print `string[i - 1]`, which indexes
`string[-1]` and so fails exactly when the string is empty. -/
def updateGo (table : DistTable) (s : List T) : NFA T → ℕ → ℤ → Option (NFA T)
  | A1, 0, curr =>
    match tlookup table curr with
    | none => none
    | some entries =>
      match entries.get? 0 with
      | none => none
      | some e =>
        match e.2 with
        | none => none
        | some prev =>
          let A2 : NFA T :=
            { A1 with transitions := transAdd A1.transitions (prev, none) {curr} }
          if s.isEmpty then none else some A2
  | A1, i + 1, curr =>
    match tlookup table curr with
    | none => none
    | some entries =>
      match entries.get? (i + 1) with
      | none => none
      | some e =>
        match e.2 with
        | none => none
        | some prev =>
          match s.get? i with
          | none => none
          | some c =>
            updateGo table s
              { A1 with transitions := transAdd A1.transitions (prev, some c) {curr} }
              i prev

/-- `update_nfa` (distance.py lines 118-132): extend the alphabet with the
string's symbols and materialize the backtracked correction path as new
transitions. -/
def update_nfa (A : NFA T) (s : List T) : Option (NFA T) :=
  updateGo (distance_table A s) s { A with alphabet := listUnion A.alphabet s }
    s.length A.final_state

/-- The two-state NFA for the regex `a`. -/
def nfaLitA : NFA Char := ⟨{0, 1}, ['a'], [((0, some 'a'), {1})], 0, 1⟩

/-- C2 (code bug): for the NFA of the regex `a` and the input string
`aa`, the correction distance computed by `distance_table` —
`table[final][len(s)]` — is infinite, although deleting the second symbol
of `aa` yields the string `a`, which the automaton already accepts, so the
minimum number of substitution/insertion/deletion-style edits is 1.  The
dynamic program has no finite cost for consuming a symbol while remaining
in a state without a matching self-edge (the deletion case; distance.py
lines 76-77 contain exactly this fix, commented out). -/
theorem C2_distance_table_misses_deletion :
    correction_distance nfaLitA ['a', 'a'] = ⊤ ∧
    nfaLitA.accept ['a'] = true ∧
    ['a'] = ['a', 'a'].take 1 ++ ['a', 'a'].drop 2 ∧
    nfaLitA.accept ['a', 'a'] = false := by
  decide

/-! ### Claim C3: `update_nfa` — helper lemmas -/

/-- Membership in an insertion-sorted list. -/
theorem mem_insertSorted (y : ℤ) : ∀ (l : List ℤ) (x : ℤ),
    x ∈ insertSorted y l ↔ x = y ∨ x ∈ l
  | [], x => by simp [insertSorted]
  | z :: zs, x => by
    rw [insertSorted]
    by_cases h : y ≤ z
    · simp [if_pos h, List.mem_cons]
    · simp only [if_neg h, List.mem_cons, mem_insertSorted y zs x]
      tauto

/-- `sortFin` lists exactly the elements of the set. -/
theorem mem_sortFin (s : Finset ℤ) (a : ℤ) : a ∈ sortFin s ↔ a ∈ s := by
  rw [sortFin]
  have key : ∀ m : Multiset ℤ, a ∈ Multiset.foldr insertSorted [] m ↔ a ∈ m := by
    intro m
    induction m using Multiset.induction_on with
    | empty => simp
    | cons x m ih =>
      rw [Multiset.foldr_cons, mem_insertSorted, ih]
      simp
  rw [key s.val]
  exact (Finset.mem_def).symm

/-- A set containing `a` sorts to a nonempty list. -/
theorem sortFin_ne_nil (s : Finset ℤ) (a : ℤ) (ha : a ∈ s) : sortFin s ≠ [] := by
  intro h
  rw [← mem_sortFin s a, h] at ha
  exact List.not_mem_nil a ha

/-- `set.add` preserves membership and adds its element. -/
theorem mem_listInsert (xs : List T) (x y : T) :
    x ∈ listInsert xs y ↔ x ∈ xs ∨ x = y := by
  rw [listInsert]
  by_cases h : y ∈ xs
  · simp only [if_pos h]
    constructor
    · exact Or.inl
    · rintro (hx | rfl)
      · exact hx
      · exact h
  · simp [if_neg h, List.mem_append]

/-- `set.update` preserves membership of the base set. -/
theorem mem_listUnion_left (ys : List T) : ∀ (xs : List T) (x : T),
    x ∈ xs → x ∈ listUnion xs ys := by
  induction ys with
  | nil => intro xs x hx; exact hx
  | cons y ys ih =>
    intro xs x hx
    rw [listUnion, List.foldl_cons]
    exact ih _ x ((mem_listInsert xs x y).2 (Or.inl hx))

/-- `set.update` contains every added element. -/
theorem mem_listUnion_right : ∀ (ys xs : List T) (y : T),
    y ∈ ys → y ∈ listUnion xs ys
  | [], _, y, hy => absurd hy (List.not_mem_nil y)
  | y0 :: ys, xs, y, hy => by
    rw [listUnion, List.foldl_cons]
    rcases List.mem_cons.1 hy with rfl | hy'
    · exact mem_listUnion_left ys _ y ((mem_listInsert xs y y).2 (Or.inr rfl))
    · exact mem_listUnion_right ys _ y hy'

/-- `transAdd` only grows every lookup. -/
theorem transLookup_transAdd_subset (k : ℤ × Sym T) (v : Finset ℤ) :
    ∀ (ts : TransList T) (k' : ℤ × Sym T),
      transLookup ts k' ⊆ transLookup (transAdd ts k v) k'
  | [], k' => by
    simp [transLookup]
  | e :: ts, k' => by
    rw [transAdd]
    by_cases he : e.1 = k
    · rw [if_pos he]
      by_cases hk : e.1 = k'
      · rw [transLookup, transLookup,
          List.find?_cons_of_pos _ (by simpa using hk),
          List.find?_cons_of_pos _ (by simpa using he.symm.trans hk)]
        exact Finset.subset_union_left
      · rw [transLookup, transLookup,
          List.find?_cons_of_neg _ (by simpa using hk),
          List.find?_cons_of_neg _ (by simpa using fun h => hk (he.trans h))]
    · rw [if_neg he]
      by_cases hk : e.1 = k'
      · rw [transLookup, transLookup, List.find?_cons_of_pos _ (by simpa using hk),
          List.find?_cons_of_pos _ (by simpa using hk)]
      · rw [transLookup, transLookup, List.find?_cons_of_neg _ (by simpa using hk),
          List.find?_cons_of_neg _ (by simpa using hk)]
        exact transLookup_transAdd_subset k v ts k'

/-- `transAdd` makes its destinations visible at its key. -/
theorem subset_transLookup_transAdd (k : ℤ × Sym T) (v : Finset ℤ) :
    ∀ (ts : TransList T), v ⊆ transLookup (transAdd ts k v) k
  | [] => by
    rw [transAdd, transLookup, List.find?_cons_of_pos _ (by simp)]
  | e :: ts => by
    rw [transAdd]
    by_cases he : e.1 = k
    · rw [if_pos he, transLookup, List.find?_cons_of_pos _ (by simp)]
      exact Finset.subset_union_right
    · rw [if_neg he, transLookup, List.find?_cons_of_neg _ (by simpa using he)]
      exact subset_transLookup_transAdd k v ts

/-- `transAdd` preserves key presence. -/
theorem transHasKey_transAdd (k : ℤ × Sym T) (v : Finset ℤ) :
    ∀ (ts : TransList T) (k' : ℤ × Sym T),
      transHasKey ts k' = true → transHasKey (transAdd ts k v) k' = true
  | [], k', h => by simp [transHasKey] at h
  | e :: ts, k', h => by
    rw [transHasKey, List.any_cons] at h
    rw [transAdd]
    by_cases he : e.1 = k
    · rw [if_pos he, transHasKey, List.any_cons]
      rcases Bool.or_eq_true_iff.1 h with h1 | h2
      · simp only [decide_eq_true_eq] at h1
        simp [he ▸ h1]
      · simp [h2]
    · rw [if_neg he, transHasKey, List.any_cons]
      rcases Bool.or_eq_true_iff.1 h with h1 | h2
      · simp [h1]
      · have := transHasKey_transAdd k v ts k' h2
        rw [transHasKey] at this
        simp [this]

/-- A nonempty lookup implies the key is present. -/
theorem transHasKey_of_mem_lookup (ts : TransList T) (k : ℤ × Sym T) (x : ℤ)
    (hx : x ∈ transLookup ts k) : transHasKey ts k = true := by
  rw [transLookup] at hx
  rcases hf : ts.find? (fun e => decide (e.1 = k)) with _ | e
  · rw [hf] at hx
    exact absurd hx (Finset.not_mem_empty x)
  · rw [transHasKey, List.any_eq_true]
    have h9 := List.find?_some hf
    refine ⟨e, List.mem_of_find?_eq_some hf, ?_⟩
    simpa using h9

/-- The epsilon saturation only grows its argument. -/
theorem subset_iterate_epsStep (ts : TransList T) : ∀ (n : ℕ) (S : Finset ℤ),
    S ⊆ (epsStep ts)^[n] S
  | 0, S => fun x hx => hx
  | n + 1, S => by
    rw [Function.iterate_succ_apply]
    exact fun x hx =>
      subset_iterate_epsStep ts n (epsStep ts S) (Finset.mem_union_left _ hx)

/-- Branch-free normal form of `NFA.eps_closure`. -/
theorem eps_closure_eq (A : NFA T) (st : ℤ) (inc : Bool) :
    A.eps_closure st inc = (if inc then {st} else ∅) ∪
      (if transHasKey A.transitions (st, none) then
        (epsStep A.transitions)^[A.states.card] (transLookup A.transitions (st, none))
      else ∅) := by
  rw [NFA.eps_closure]
  by_cases h : transHasKey A.transitions (st, none) = true
  · simp [h]
  · simp [h]

/-- A state one epsilon edge away is in the epsilon closure. -/
theorem mem_eps_closure_of_edge (A : NFA T) (st q : ℤ)
    (hq : q ∈ transLookup A.transitions (st, none)) : q ∈ A.eps_closure st := by
  have hk : transHasKey A.transitions (st, none) = true :=
    transHasKey_of_mem_lookup _ _ _ hq
  rw [eps_closure_eq, if_pos hk]
  exact Finset.mem_union_right _
    (subset_iterate_epsStep A.transitions A.states.card _ hq)

/-- A direct edge from the state itself lands in `next_states`. -/
theorem mem_next_states_self (A : NFA T) (q m : ℤ) (c : T) (hc : c ∈ A.alphabet)
    (hm : m ∈ transLookup A.transitions (q, some c)) : m ∈ A.next_states q c := by
  rw [NFA.next_states, if_neg (by simpa using hc)]
  exact Finset.mem_biUnion.2
    ⟨q, Finset.mem_union_left _ (Finset.mem_singleton_self q), by simpa using hm⟩

/-- A direct edge from a state of the epsilon closure lands in
`next_states`. -/
theorem mem_next_states_eps (A : NFA T) (q q0 m : ℤ) (c : T) (hc : c ∈ A.alphabet)
    (h0 : q0 ∈ A.eps_closure q) (hm : m ∈ transLookup A.transitions (q0, some c)) :
    m ∈ A.next_states q c := by
  rw [NFA.next_states, if_neg (by simpa using hc)]
  exact Finset.mem_biUnion.2 ⟨q0, Finset.mem_union_right _ h0, by simpa using hm⟩

/-- A chain of single transitions consuming the given word. -/
def DirectPathTo (A : NFA T) : List T → ℤ → ℤ → Prop
  | [], a, b => a = b
  | c :: r, a, b => ∃ m, m ∈ transLookup A.transitions (a, some c) ∧ DirectPathTo A r m b

/-- Extend a direct path by one edge at its end. -/
theorem DirectPathTo_append (A : NFA T) : ∀ (r : List T) (a b : ℤ) (c : T) (z : ℤ),
    DirectPathTo A r a b → z ∈ transLookup A.transitions (b, some c) →
    DirectPathTo A (r ++ [c]) a z
  | [], a, b, c, z, hab, hz => by
    have hab' : a = b := hab
    subst hab'
    exact ⟨z, hz, rfl⟩
  | d :: r, a, b, c, z, hab, hz => by
    rcases hab with ⟨m, hm, hpath⟩
    exact ⟨m, hm, DirectPathTo_append A r m b c z hpath hz⟩

/-- Direct paths survive growing the transition dict. -/
theorem DirectPathTo_mono (A B : NFA T)
    (hk : ∀ k, transLookup A.transitions k ⊆ transLookup B.transitions k) :
    ∀ (r : List T) (a b : ℤ), DirectPathTo A r a b → DirectPathTo B r a b
  | [], a, b, h => h
  | c :: r, a, b, h => by
    rcases h with ⟨m, hm, hpath⟩
    exact ⟨m, hk _ hm, DirectPathTo_mono A B hk r m b hpath⟩

/-- A direct path to the final state over alphabet symbols is accepted by
the recursive simulation. -/
theorem acceptFrom_of_directPath (A : NFA T) : ∀ (rest : List T) (q : ℤ),
    DirectPathTo A rest q A.final_state → (∀ c ∈ rest, c ∈ A.alphabet) →
    A.acceptFrom rest q = true
  | [], q, hp, _ => by
    have hq : q = A.final_state := hp
    rw [NFA.acceptFrom]
    simp [hq]
  | c :: rest, q, hp, hal => by
    rcases hp with ⟨m, hm, hpath⟩
    rw [NFA.acceptFrom, List.any_eq_true]
    refine ⟨m, ?_, acceptFrom_of_directPath A rest m hpath
      (fun x hx => hal x (List.mem_cons_of_mem _ hx))⟩
    rw [mem_sortFin]
    exact mem_next_states_self A q m c (hal c (List.mem_cons_self _ _)) hm

/-- One saturation step is monotone in both the dict and the set. -/
theorem epsStep_mono (ts1 ts2 : TransList T)
    (hk : ∀ k, transLookup ts1 k ⊆ transLookup ts2 k)
    (S1 S2 : Finset ℤ) (hs : S1 ⊆ S2) : epsStep ts1 S1 ⊆ epsStep ts2 S2 := by
  intro x hx
  rw [epsStep, Finset.mem_union] at hx ⊢
  rcases hx with hx | hx
  · exact Or.inl (hs hx)
  · rcases Finset.mem_biUnion.1 hx with ⟨s0, hs0, hmem⟩
    exact Or.inr (Finset.mem_biUnion.2 ⟨s0, hs hs0, hk _ hmem⟩)

/-- Iterated saturation is monotone. -/
theorem iterate_epsStep_mono (ts1 ts2 : TransList T)
    (hk : ∀ k, transLookup ts1 k ⊆ transLookup ts2 k) :
    ∀ (n : ℕ) (S1 S2 : Finset ℤ), S1 ⊆ S2 →
      (epsStep ts1)^[n] S1 ⊆ (epsStep ts2)^[n] S2
  | 0, S1, S2, hs => hs
  | n + 1, S1, S2, hs => by
    rw [Function.iterate_succ_apply, Function.iterate_succ_apply]
    exact iterate_epsStep_mono ts1 ts2 hk n _ _ (epsStep_mono ts1 ts2 hk S1 S2 hs)

/-- The epsilon closure is monotone under growing the transition dict (for
automata over the same state set). -/
theorem eps_closure_mono (A B : NFA T) (hstates : A.states = B.states)
    (hkkey : ∀ k, transHasKey A.transitions k = true → transHasKey B.transitions k = true)
    (hk : ∀ k, transLookup A.transitions k ⊆ transLookup B.transitions k)
    (st : ℤ) (inc : Bool) : A.eps_closure st inc ⊆ B.eps_closure st inc := by
  rw [eps_closure_eq, eps_closure_eq, hstates]
  refine Finset.union_subset_union (fun x hx => hx) ?_
  by_cases hA : transHasKey A.transitions (st, none) = true
  · rw [if_pos hA, if_pos (hkkey _ hA)]
    exact iterate_epsStep_mono A.transitions B.transitions hk B.states.card _ _
      (hk (st, none))
  · rw [if_neg (by simpa using hA)]
    exact Finset.empty_subset _

/-- `next_states` is monotone under growing transitions and alphabet. -/
theorem next_states_mono (A B : NFA T) (hstates : A.states = B.states)
    (halph : ∀ x ∈ A.alphabet, x ∈ B.alphabet)
    (hkkey : ∀ k, transHasKey A.transitions k = true → transHasKey B.transitions k = true)
    (hk : ∀ k, transLookup A.transitions k ⊆ transLookup B.transitions k)
    (q : ℤ) (c : T) : A.next_states q c ⊆ B.next_states q c := by
  rw [NFA.next_states, NFA.next_states]
  by_cases hc : c ∈ A.alphabet
  · rw [if_neg (by simpa using hc), if_neg (by simpa using halph c hc)]
    intro x hx
    rcases Finset.mem_biUnion.1 hx with ⟨s0, hs0, hmem⟩
    refine Finset.mem_biUnion.2 ⟨s0, ?_, ?_⟩
    · rcases Finset.mem_union.1 hs0 with h | h
      · exact Finset.mem_union_left _ h
      · exact Finset.mem_union_right _
          (eps_closure_mono A B hstates hkkey hk q false h)
    · simp only at hmem ⊢
      exact hk _ hmem
  · rw [if_pos (by simpa using hc)]
    intro x hx
    exact absurd hx (Finset.not_mem_empty x)

/-- The recursive acceptance simulation is monotone under growing
transitions and alphabet (state set and distinguished states fixed). -/
theorem acceptFrom_mono (A B : NFA T) (hstates : A.states = B.states)
    (halph : ∀ x ∈ A.alphabet, x ∈ B.alphabet)
    (hkkey : ∀ k, transHasKey A.transitions k = true → transHasKey B.transitions k = true)
    (hk : ∀ k, transLookup A.transitions k ⊆ transLookup B.transitions k)
    (hfin : A.final_state = B.final_state) :
    ∀ (rest : List T) (q : ℤ), A.acceptFrom rest q = true → B.acceptFrom rest q = true
  | [], q, h => by
    rw [NFA.acceptFrom, decide_eq_true_eq] at h
    rw [NFA.acceptFrom, decide_eq_true_eq]
    rcases h with h | h
    · exact Or.inl (hfin ▸ h)
    · exact Or.inr (hfin ▸ eps_closure_mono A B hstates hkkey hk q false h)
  | c :: rest, q, h => by
    rw [NFA.acceptFrom, List.any_eq_true] at h
    rcases h with ⟨q1, hq1, hacc⟩
    rw [mem_sortFin] at hq1
    rw [NFA.acceptFrom, List.any_eq_true]
    refine ⟨q1, ?_, acceptFrom_mono A B hstates halph hkkey hk hfin rest q1 hacc⟩
    rw [mem_sortFin]
    exact next_states_mono A B hstates halph hkkey hk q c hq1

/-- `entryMin` returns one of its two arguments. -/
theorem entryMin_cases (a b : Cost × WithTop ℤ) : entryMin a b = a ∨ entryMin a b = b := by
  rw [entryMin]
  split_ifs
  · exact Or.inr rfl
  · exact Or.inl rfl

/-- The `(inf, inf)` placeholder loses to any entry with an integer
predecessor. -/
theorem entryMin_top (c : Cost) (src : ℤ) :
    entryMin (⊤, ⊤) (c, ((src : ℤ) : WithTop ℤ)) = (c, ((src : ℤ) : WithTop ℤ)) := by
  rw [entryMin]
  rcases (le_top : c ≤ ⊤).lt_or_eq with h | h
  · rw [if_pos (Or.inl h)]
  · rw [if_pos (Or.inr ⟨h, WithTop.coe_lt_top src⟩)]

/-- Folding `entryMin` either keeps the start value or returns the entry of
some source in the list. -/
theorem foldEntry_spec (f : ℤ → Cost) : ∀ (l : List ℤ) (mv : Cost × WithTop ℤ),
    l.foldl (fun acc s => entryMin acc (f s, ((s : ℤ) : WithTop ℤ))) mv = mv ∨
    ∃ src ∈ l,
      l.foldl (fun acc s => entryMin acc (f s, ((s : ℤ) : WithTop ℤ))) mv =
        (f src, ((src : ℤ) : WithTop ℤ))
  | [], _ => Or.inl rfl
  | s0 :: l, mv => by
    rw [List.foldl_cons]
    rcases entryMin_cases mv (f s0, ((s0 : ℤ) : WithTop ℤ)) with hc | hc <;> rw [hc]
    · rcases foldEntry_spec f l mv with h | ⟨src, hsrc, h⟩
      · exact Or.inl h
      · exact Or.inr ⟨src, List.mem_cons_of_mem _ hsrc, h⟩
    · rcases foldEntry_spec f l (f s0, ((s0 : ℤ) : WithTop ℤ)) with h | ⟨src, hsrc, h⟩
      · exact Or.inr ⟨s0, List.mem_cons_self _ _, h⟩
      · exact Or.inr ⟨src, List.mem_cons_of_mem _ hsrc, h⟩

/-- Folding `entryMin` from the placeholder over a nonempty list always
returns the entry of some source in the list. -/
theorem foldEntry_pred (f : ℤ → Cost) (l : List ℤ) (hl : l ≠ []) :
    ∃ src ∈ l,
      l.foldl (fun acc s => entryMin acc (f s, ((s : ℤ) : WithTop ℤ))) (⊤, ⊤) =
        (f src, ((src : ℤ) : WithTop ℤ)) := by
  match l, hl with
  | s0 :: l, _ =>
    rw [List.foldl_cons, entryMin_top]
    rcases foldEntry_spec f l (f s0, ((s0 : ℤ) : WithTop ℤ)) with h | ⟨src, hsrc, h⟩
    · exact ⟨s0, List.mem_cons_self _ _, h⟩
    · exact ⟨src, List.mem_cons_of_mem _ hsrc, h⟩

/-- Well-shapedness of one entry of the dynamic-programming table: the
column list has the stated length, column 0 stores the start state as
predecessor, and every stored predecessor is an integer that is the start
state or a state of the automaton. -/
def entOk (A : NFA T) (len : ℕ) (ent : ℤ × List (Cost × WithTop ℤ)) : Prop :=
  ent.2.length = len ∧
  (∀ e, ent.2.get? 0 = some e → e.2 = ((A.start_state : ℤ) : WithTop ℤ)) ∧
  (∀ (j : ℕ) (e), ent.2.get? j = some e →
    ∃ prev : ℤ, e.2 = ((prev : ℤ) : WithTop ℤ) ∧
      (prev = A.start_state ∨ prev ∈ A.states))

/-- `distStep` keeps the table keys unchanged. -/
theorem distStep_keys (A : NFA T) (pl : ℤ → ℤ → Cost × Cost) (inc : ℤ → ℤ → T → Bool)
    (table : DistTable) (ln : ℕ) (sym : T) :
    (distStep A pl inc table ln sym).map (fun e => e.1) = table.map (fun e => e.1) := by
  simp [distStep, List.map_map, Function.comp_def]

/-- `distMin` always stores a state of the automaton as predecessor. -/
theorem distMin_pred (A : NFA T) (pl : ℤ → ℤ → Cost × Cost) (inc : ℤ → ℤ → T → Bool)
    (table : DistTable) (ln : ℕ) (sym : T) (st : ℤ)
    (hstart : A.start_state ∈ A.states) :
    ∃ prev : ℤ, (distMin A pl inc table ln sym st).2 = ((prev : ℤ) : WithTop ℤ) ∧
      prev ∈ A.states := by
  rw [distMin]
  rcases foldEntry_pred
      (fun src => (((tlookup table src).getD []).getD ln (⊤, ⊤)).1 +
        edgeCost pl inc src st sym)
      (sortFin A.states) (sortFin_ne_nil A.states A.start_state hstart) with
    ⟨src, hsrc, h⟩
  exact ⟨src, by rw [h], (mem_sortFin A.states src).1 hsrc⟩

/-- `distStep` preserves well-shapedness, extending each column list by
one. -/
theorem distStep_entOk (A : NFA T) (pl : ℤ → ℤ → Cost × Cost) (inc : ℤ → ℤ → T → Bool)
    (table : DistTable) (ln : ℕ) (sym : T) (len : ℕ)
    (hstart : A.start_state ∈ A.states) (hlen : 1 ≤ len)
    (h : ∀ ent ∈ table, entOk A len ent) :
    ∀ ent ∈ distStep A pl inc table ln sym, entOk A (len + 1) ent := by
  intro ent' hent'
  rw [distStep, List.mem_map] at hent'
  rcases hent' with ⟨ent, hent, rfl⟩
  rcases h ent hent with ⟨hl, h0, hall⟩
  refine ⟨by simp [hl], ?_, ?_⟩
  · intro e he
    rw [List.get?_append (by rw [hl]; omega)] at he
    exact h0 e he
  · intro j e he
    rcases lt_trichotomy j len with hj | hj | hj
    · rw [List.get?_append (by rw [hl]; exact hj)] at he
      exact hall j e he
    · subst hj
      rw [← hl, List.get?_concat_length] at he
      rcases distMin_pred A pl inc table ln sym ent.1 hstart with ⟨prev, hp, hps⟩
      cases he
      exact ⟨prev, hp, Or.inr hps⟩
    · rw [List.get?_eq_none.2 (by simp [hl]; omega)] at he
      cases he
  
/-- The initial table has the automaton states (sorted) as keys. -/
theorem distInit_keys (A : NFA T) (pl : ℤ → ℤ → Cost × Cost) :
    (distInit A pl).map (fun e => e.1) = sortFin A.states := by
  simp [distInit, List.map_map, Function.comp_def]

/-- The initial table is well shaped with one column. -/
theorem distInit_entOk (A : NFA T) (pl : ℤ → ℤ → Cost × Cost) :
    ∀ ent ∈ distInit A pl, entOk A 1 ent := by
  intro ent hent
  rw [distInit, List.mem_map] at hent
  rcases hent with ⟨st, _, rfl⟩
  refine ⟨rfl, ?_, ?_⟩
  · intro e he
    cases he
    rfl
  · intro j e he
    match j, he with
    | 0, he =>
      cases he
      exact ⟨A.start_state, rfl, Or.inl rfl⟩

/-- Shape invariant carried through the per-symbol fold of the dynamic
program. -/
theorem distFold_shape (A : NFA T) (pl : ℤ → ℤ → Cost × Cost) (inc : ℤ → ℤ → T → Bool)
    (hstart : A.start_state ∈ A.states) :
    ∀ (ps : List (ℕ × T)) (table : DistTable) (len : ℕ),
      table.map (fun e => e.1) = sortFin A.states →
      (∀ ent ∈ table, entOk A len ent) → 1 ≤ len →
      (ps.foldl (fun t lsym => distStep A pl inc t lsym.1 lsym.2) table).map
          (fun e => e.1) = sortFin A.states ∧
      ∀ ent ∈ ps.foldl (fun t lsym => distStep A pl inc t lsym.1 lsym.2) table,
        entOk A (len + ps.length) ent
  | [], table, len, hkeys, hok, _ => ⟨hkeys, by simpa using hok⟩
  | p :: ps, table, len, hkeys, hok, hlen => by
    rw [List.foldl_cons]
    have hrec := distFold_shape A pl inc hstart ps
      (distStep A pl inc table p.1 p.2) (len + 1)
      ((distStep_keys A pl inc table p.1 p.2).trans hkeys)
      (distStep_entOk A pl inc table p.1 p.2 len hstart hlen hok)
      (by omega)
    refine ⟨hrec.1, ?_⟩
    have harith : len + (p :: ps).length = (len + 1) + ps.length := by
      simp [List.length_cons]
      omega
    rw [harith]
    exact hrec.2

/-- The full table of `distance_table` is well shaped: keys are the sorted
states, each column list has `len(s) + 1` entries, and predecessors are
start-or-state integers with the start state at column 0. -/
theorem distance_table_shape (A : NFA T) (s : List T)
    (hstart : A.start_state ∈ A.states) :
    (distance_table A s).map (fun e => e.1) = sortFin A.states ∧
    ∀ ent ∈ distance_table A s, entOk A (s.length + 1) ent := by
  rw [distance_table]
  have h := distFold_shape A (fwAll A).1 (fwAll A).2 hstart s.enum
    (distInit A (fwAll A).1) 1 (distInit_keys A (fwAll A).1)
    (distInit_entOk A (fwAll A).1) le_rfl
  refine ⟨h.1, ?_⟩
  have harith : (1 : ℕ) + s.enum.length = s.length + 1 := by
    rw [List.enum_length]
    omega
  rw [← harith]
  exact h.2

/-- Looking up any state of the automaton in the table succeeds and yields
a well-shaped column list. -/
theorem tlookup_shape (A : NFA T) (s : List T) (hstart : A.start_state ∈ A.states)
    (st : ℤ) (hst : st ∈ A.states) :
    ∃ entries, tlookup (distance_table A s) st = some entries ∧
      entries.length = s.length + 1 ∧
      (∀ e, entries.get? 0 = some e → e.2 = ((A.start_state : ℤ) : WithTop ℤ)) ∧
      (∀ (j : ℕ) (e), entries.get? j = some e →
        ∃ prev : ℤ, e.2 = ((prev : ℤ) : WithTop ℤ) ∧
          (prev = A.start_state ∨ prev ∈ A.states)) := by
  rcases distance_table_shape A s hstart with ⟨hkeys, hok⟩
  have hmem : st ∈ (distance_table A s).map (fun e => e.1) := by
    rw [hkeys, mem_sortFin]
    exact hst
  rcases List.mem_map.1 hmem with ⟨ent, hent, hfst⟩
  have hsome : ((distance_table A s).find? (fun e => decide (e.1 = st))).isSome := by
    rw [List.find?_isSome]
    exact ⟨ent, hent, by simp [hfst]⟩
  rcases Option.isSome_iff_exists.1 hsome with ⟨fent, hfind⟩
  have hfmem : fent ∈ distance_table A s := List.mem_of_find?_eq_some hfind
  rcases hok fent hfmem with ⟨hl, h0, hall⟩
  refine ⟨fent.2, ?_, hl, h0, hall⟩
  rw [tlookup, hfind]
  rfl

/-- Reduction of the base case of the backtracking loop once the table
lookups are known. -/
theorem updateGo_zero (table : DistTable) (s : List T) (A1 : NFA T) (curr : ℤ)
    (entries : List (Cost × WithTop ℤ)) (e : Cost × WithTop ℤ) (prev : ℤ)
    (h1 : tlookup table curr = some entries) (h2 : entries.get? 0 = some e)
    (h3 : e.2 = ((prev : ℤ) : WithTop ℤ)) :
    updateGo table s A1 0 curr =
      if s.isEmpty then none
      else some { A1 with transitions := transAdd A1.transitions (prev, none) {curr} } := by
  simp only [updateGo, h1, h2, h3]

/-- Reduction of the step case of the backtracking loop once the table and
string lookups are known. -/
theorem updateGo_succ (table : DistTable) (s : List T) (A1 : NFA T) (i : ℕ) (curr : ℤ)
    (entries : List (Cost × WithTop ℤ)) (e : Cost × WithTop ℤ) (prev : ℤ) (c : T)
    (h1 : tlookup table curr = some entries) (h2 : entries.get? (i + 1) = some e)
    (h3 : e.2 = ((prev : ℤ) : WithTop ℤ)) (h4 : s.get? i = some c) :
    updateGo table s A1 (i + 1) curr =
      updateGo table s
        { A1 with transitions := transAdd A1.transitions (prev, some c) {curr} } i prev := by
  simp only [updateGo, h1, h2, h3, h4]

/-- The backtracking loop of `update_nfa` succeeds on every nonempty input
string, only grows the transition dict, keeps all other fields, and lays
down an epsilon edge from the start state followed by a direct path spelling
the consumed prefix. -/
theorem updateGo_main (A : NFA T) (s : List T)
    (hstart : A.start_state ∈ A.states) (hs : s ≠ []) :
    ∀ (i : ℕ), i ≤ s.length → ∀ (curr : ℤ), curr ∈ A.states → ∀ (A1 : NFA T),
      A1.states = A.states → A1.start_state = A.start_state →
      A1.final_state = A.final_state →
      ∃ (A' : NFA T) (q0 : ℤ),
        updateGo (distance_table A s) s A1 i curr = some A' ∧
        A'.states = A1.states ∧ A'.start_state = A1.start_state ∧
        A'.final_state = A1.final_state ∧ A'.alphabet = A1.alphabet ∧
        (∀ k, transHasKey A1.transitions k = true → transHasKey A'.transitions k = true) ∧
        (∀ k, transLookup A1.transitions k ⊆ transLookup A'.transitions k) ∧
        q0 ∈ transLookup A'.transitions (A.start_state, none) ∧
        DirectPathTo A' (s.take i) q0 curr
  | 0, _, curr, hcurr, A1, hst1, hsr1, hfn1 => by
    rcases tlookup_shape A s hstart curr hcurr with ⟨entries, htl, hlen, h0, _⟩
    have hg : entries.get? 0 ≠ none := by
      intro hnone
      rw [List.get?_eq_none] at hnone
      omega
    obtain ⟨e, he⟩ := Option.ne_none_iff_exists'.1 hg
    rw [updateGo_zero (distance_table A s) s A1 curr entries e A.start_state htl he
      (h0 e he), if_neg (by simpa using hs)]
    refine ⟨_, curr, rfl, rfl, rfl, rfl, rfl,
      fun k h => transHasKey_transAdd _ _ A1.transitions k h,
      fun k => transLookup_transAdd_subset _ _ A1.transitions k, ?_, rfl⟩
    exact subset_transLookup_transAdd (A.start_state, none) {curr} A1.transitions
      (Finset.mem_singleton_self curr)
  | i + 1, hi, curr, hcurr, A1, hst1, hsr1, hfn1 => by
    rcases tlookup_shape A s hstart curr hcurr with ⟨entries, htl, hlen, _, hall⟩
    have hg : entries.get? (i + 1) ≠ none := by
      intro hnone
      rw [List.get?_eq_none] at hnone
      omega
    obtain ⟨e, he⟩ := Option.ne_none_iff_exists'.1 hg
    rcases hall (i + 1) e he with ⟨prev, hp, hprevS⟩
    have hprev : prev ∈ A.states := by
      rcases hprevS with h | h
      · rw [h]
        exact hstart
      · exact h
    have hgc : s.get? i ≠ none := by
      intro hnone
      rw [List.get?_eq_none] at hnone
      omega
    obtain ⟨c, hc⟩ := Option.ne_none_iff_exists'.1 hgc
    rw [updateGo_succ (distance_table A s) s A1 i curr entries e prev c htl he hp hc]
    obtain ⟨A', q0, heq, hst, hsr, hfn, hal, hkk, hlk, hq0, hpath⟩ :=
      updateGo_main A s hstart hs i (by omega) prev hprev
        { A1 with transitions := transAdd A1.transitions (prev, some c) {curr} }
        hst1 hsr1 hfn1
    refine ⟨A', q0, heq, hst, hsr, hfn, hal,
      fun k h => hkk k (transHasKey_transAdd _ _ A1.transitions k h),
      fun k => subset_trans (transLookup_transAdd_subset _ _ A1.transitions k) (hlk k),
      hq0, ?_⟩
    rw [List.take_succ, ← List.get?_eq_getElem?, hc]
    exact DirectPathTo_append A' (s.take i) q0 prev c curr hpath
      (hlk (prev, some c)
        (subset_transLookup_transAdd (prev, some c) {curr} A1.transitions
          (Finset.mem_singleton_self curr)))

/-- C3 counterexample: on the empty string, `update_nfa` crashes (the
debug print indexes `string[-1]` of an empty string) and returns no
automaton at all, so the claim fails for `s = ""` — here on the two-state
NFA of the regex `a`. -/
theorem C3_counterexample_empty_string :
    update_nfa nfaLitA ([] : List Char) = none := by decide

/-- C3 (amended): for every NFA whose start and final states belong to its
state set and every NONEMPTY string `s`, `update_nfa A s` returns an
automaton that accepts `s`, has the same state set, start state and final
state as `A`, and still accepts every string `A` accepted (the new
transitions only grow the dict and the alphabet only grows by union with
the letters of `s`). -/
theorem C3_amended_update_nfa (A : NFA T) (s : List T) (hs : s ≠ [])
    (hstart : A.start_state ∈ A.states) (hfin : A.final_state ∈ A.states) :
    ∃ A', update_nfa A s = some A' ∧
      A'.states = A.states ∧ A'.start_state = A.start_state ∧
      A'.final_state = A.final_state ∧ A'.accept s = true ∧
      ∀ w, A.accept w = true → A'.accept w = true := by
  obtain ⟨A', q0, heq, hst, hsr, hfn, hal, hkk, hlk, hq0, hpath⟩ :=
    updateGo_main A s hstart hs s.length le_rfl A.final_state hfin
      { A with alphabet := listUnion A.alphabet s } rfl rfl rfl
  rw [List.take_length] at hpath
  have hst' : A'.states = A.states := hst
  have hsr' : A'.start_state = A.start_state := hsr
  have hfn' : A'.final_state = A.final_state := hfn
  have hal' : A'.alphabet = listUnion A.alphabet s := hal
  refine ⟨A', heq, hst', hsr', hfn', ?_, ?_⟩
  · match s, hs, hpath with
    | c :: rest, _, hpath =>
      obtain ⟨q1, hq1, hrest⟩ := hpath
      rw [NFA.accept, hsr', NFA.acceptFrom, List.any_eq_true]
      refine ⟨q1, ?_, ?_⟩
      · rw [mem_sortFin]
        exact mem_next_states_eps A' A.start_state q0 q1 c
          (by rw [hal']
              exact mem_listUnion_right _ _ _ (List.mem_cons_self _ _))
          (mem_eps_closure_of_edge A' A.start_state q0 hq0) hq1
      · exact acceptFrom_of_directPath A' rest q1 (by rw [hfn']; exact hrest)
          (fun x hx => by
            rw [hal']
            exact mem_listUnion_right _ _ _ (List.mem_cons_of_mem _ hx))
  · intro w hw
    rw [NFA.accept] at hw
    rw [NFA.accept, hsr']
    exact acceptFrom_mono A A' hst'.symm
      (fun x hx => by rw [hal']; exact mem_listUnion_left _ _ _ hx)
      (fun k h => hkk k h) (fun k => hlk k) hfn'.symm w A.start_state hw

/-- C3 witness: the amended theorem applied to the NFA of the regex `a`
and the nonempty string "aa". -/
theorem C3_witness_nonempty :
    (['a', 'a'] : List Char) ≠ [] ∧
      nfaLitA.start_state ∈ nfaLitA.states ∧
      nfaLitA.final_state ∈ nfaLitA.states ∧
      ∃ A', update_nfa nfaLitA ['a', 'a'] = some A' ∧
        A'.states = nfaLitA.states ∧ A'.start_state = nfaLitA.start_state ∧
        A'.final_state = nfaLitA.final_state ∧ A'.accept ['a', 'a'] = true ∧
        ∀ w, nfaLitA.accept w = true → A'.accept w = true :=
  ⟨by decide, by decide, by decide,
    C3_amended_update_nfa nfaLitA ['a', 'a'] (by decide) (by decide) (by decide)⟩

/-! ### Claim C9: the Thompson invariant of construct_nfa -/

/-- Every member of a finite set of integers is at most `fmax` of the set. -/
theorem le_fmax (s : Finset ℤ) (a : ℤ) (ha : a ∈ s) : a ≤ fmax s := by
  rw [fmax]
  rcases hm : s.max with _ | m
  · have hempty : s = ∅ := Finset.max_eq_bot.1 hm
    subst hempty
    exact absurd ha (Finset.not_mem_empty a)
  · have hle := Finset.le_max ha
    rw [hm] at hle
    exact WithBot.coe_le_coe.1 hle

/-- Every member of a finite set of integers is at least `fmin` of the set. -/
theorem fmin_le (s : Finset ℤ) (a : ℤ) (ha : a ∈ s) : fmin s ≤ a := by
  rw [fmin]
  rcases hm : s.min with _ | m
  · have hempty : s = ∅ := Finset.min_eq_top.1 hm
    subst hempty
    exact absurd ha (Finset.not_mem_empty a)
  · have hle := Finset.min_le ha
    rw [hm] at hle
    exact WithTop.coe_le_coe.1 hle

/-- The per-entry part of the Thompson invariant, relative to a state set,
a start state and a final state: the source belongs to the state set and is
not the final state, and every destination belongs to the state set and is
not the start state. -/
def entryOk (S : Finset ℤ) (st fin : ℤ) (e : (ℤ × Sym T) × Finset ℤ) : Prop :=
  (e.1.1 ∈ S ∧ e.1.1 ≠ fin) ∧ ∀ d ∈ e.2, d ∈ S ∧ d ≠ st

instance (S : Finset ℤ) (st fin : ℤ) (e : (ℤ × Sym T) × Finset ℤ) :
    Decidable (entryOk S st fin e) :=
  inferInstanceAs (Decidable ((e.1.1 ∈ S ∧ e.1.1 ≠ fin) ∧ ∀ d ∈ e.2, d ∈ S ∧ d ≠ st))

/-- The Thompson well-formedness invariant maintained by the regex
compiler: distinct start and final states inside the state set, sources and
destinations inside the state set, no transition entering the start state
and none leaving the final state. -/
def ThompsonWF (A : NFA T) : Prop :=
  A.start_state ∈ A.states ∧ A.final_state ∈ A.states ∧
  A.start_state ≠ A.final_state ∧
  ∀ e ∈ A.transitions, entryOk A.states A.start_state A.final_state e

instance (A : NFA T) : Decidable (ThompsonWF A) :=
  inferInstanceAs (Decidable (A.start_state ∈ A.states ∧ A.final_state ∈ A.states ∧
    A.start_state ≠ A.final_state ∧
    ∀ e ∈ A.transitions, entryOk A.states A.start_state A.final_state e))

/-- `transAdd` preserves `entryOk` when the added key and destinations
satisfy it. -/
theorem transAdd_entryOk (S : Finset ℤ) (st fin : ℤ) :
    ∀ (ts : TransList T) (k : ℤ × Sym T) (v : Finset ℤ),
      (∀ e ∈ ts, entryOk S st fin e) → (k.1 ∈ S ∧ k.1 ≠ fin) →
      (∀ d ∈ v, d ∈ S ∧ d ≠ st) →
      ∀ e ∈ transAdd ts k v, entryOk S st fin e
  | [], k, v, _, hk, hv => by
    intro e he
    rw [transAdd, List.mem_singleton] at he
    subst he
    exact ⟨hk, hv⟩
  | e0 :: ts, k, v, hts, hk, hv => by
    intro e he
    rw [transAdd] at he
    by_cases h : e0.1 = k
    · rw [if_pos h, List.mem_cons] at he
      rcases he with he | he
      · subst he
        refine ⟨hk, ?_⟩
        intro d hd
        rcases Finset.mem_union.1 hd with hd | hd
        · exact (hts e0 (List.mem_cons_self _ _)).2 d hd
        · exact hv d hd
      · exact hts e (List.mem_cons_of_mem _ he)
    · rw [if_neg h, List.mem_cons] at he
      rcases he with he | he
      · subst he
        exact hts e (List.mem_cons_self _ _)
      · exact transAdd_entryOk S st fin ts k v
          (fun e2 he2 => hts e2 (List.mem_cons_of_mem _ he2)) hk hv e he

/-- A fold of `transAdd` steps preserves `entryOk` when every added key and
destination set satisfies it. -/
theorem foldl_transAdd_entryOk (S : Finset ℤ) (st fin : ℤ)
    (f : (ℤ × Sym T) × Finset ℤ → ℤ × Sym T) (g : (ℤ × Sym T) × Finset ℤ → Finset ℤ) :
    ∀ (l : List ((ℤ × Sym T) × Finset ℤ)) (init : TransList T),
      (∀ e ∈ init, entryOk S st fin e) →
      (∀ e ∈ l, (f e).1 ∈ S ∧ (f e).1 ≠ fin) →
      (∀ e ∈ l, ∀ d ∈ g e, d ∈ S ∧ d ≠ st) →
      ∀ e ∈ l.foldl (fun ts e => transAdd ts (f e) (g e)) init, entryOk S st fin e
  | [], init, hinit, _, _ => hinit
  | e0 :: l, init, hinit, hf, hg => by
    rw [List.foldl_cons]
    exact foldl_transAdd_entryOk S st fin f g l (transAdd init (f e0) (g e0))
      (transAdd_entryOk S st fin init (f e0) (g e0) hinit
        (hf e0 (List.mem_cons_self _ _)) (hg e0 (List.mem_cons_self _ _)))
      (fun e he => hf e (List.mem_cons_of_mem _ he))
      (fun e he => hg e (List.mem_cons_of_mem _ he))

/-- `concat` preserves the Thompson invariant. -/
theorem concat_ThompsonWF (a b : NFA T) (ha : ThompsonWF a) (hb : ThompsonWF b) :
    ThompsonWF (a.concat b) := by
  obtain ⟨has, haf, hasf, hae⟩ := ha
  obtain ⟨hbs, hbf, hbsf, hbe⟩ := hb
  have hfa := le_fmax a.states
  have hmb := fmin_le b.states
  simp only [NFA.concat]
  refine ⟨?_, ?_, ?_, ?_⟩ <;> dsimp only
  · exact Finset.mem_union_left _ has
  · refine Finset.mem_union_right _ (Finset.mem_image.2 ⟨b.final_state, ?_, rfl⟩)
    exact Finset.mem_filter.2 ⟨hbf, Ne.symm hbsf⟩
  · have h1 := hfa a.start_state has
    have h2 := hmb b.final_state hbf
    intro heq
    omega
  · refine foldl_transAdd_entryOk _ _ _ _ _ b.transitions a.transitions ?_ ?_ ?_
    · intro e he
      obtain ⟨⟨hsrc, hsf⟩, hd⟩ := hae e he
      have h1 := hfa e.1.1 hsrc
      have h2 := hmb b.final_state hbf
      refine ⟨⟨Finset.mem_union_left _ hsrc, by intro heq; omega⟩, ?_⟩
      intro d hdm
      exact ⟨Finset.mem_union_left _ (hd d hdm).1, (hd d hdm).2⟩
    · intro e he
      obtain ⟨⟨hsrc, hsf⟩, _⟩ := hbe e he
      by_cases hst : e.1.1 = b.start_state
      · rw [if_pos hst]
        have h1 := hfa a.final_state haf
        have h2 := hmb b.final_state hbf
        exact ⟨Finset.mem_union_left _ haf, by intro heq; omega⟩
      · rw [if_neg hst]
        refine ⟨Finset.mem_union_right _ (Finset.mem_image.2
          ⟨e.1.1, Finset.mem_filter.2 ⟨hsrc, hst⟩, rfl⟩), ?_⟩
        intro heq
        exact hsf (by omega)
    · intro e he d hdm
      obtain ⟨_, hd⟩ := hbe e he
      rcases Finset.mem_image.1 hdm with ⟨d0, hd0, rfl⟩
      obtain ⟨hd0s, hd0ne⟩ := hd d0 hd0
      rw [if_neg hd0ne]
      have h1 := hfa a.start_state has
      have h2 := hmb d0 hd0s
      refine ⟨Finset.mem_union_right _ (Finset.mem_image.2
        ⟨d0, Finset.mem_filter.2 ⟨hd0s, hd0ne⟩, rfl⟩), by intro heq; omega⟩

/-- `union` preserves the Thompson invariant. -/
theorem union_ThompsonWF (a b : NFA T) (ha : ThompsonWF a) (hb : ThompsonWF b) :
    ThompsonWF (a.union b) := by
  obtain ⟨has, haf, hasf, hae⟩ := ha
  obtain ⟨hbs, hbf, hbsf, hbe⟩ := hb
  have hfa := le_fmax a.states
  have hmb := fmin_le b.states
  simp only [NFA.union]
  refine ⟨?_, ?_, ?_, ?_⟩ <;> dsimp only
  · exact Finset.mem_union_left _ has
  · exact Finset.mem_union_left _ haf
  · exact hasf
  refine foldl_transAdd_entryOk _ _ _ _ _ b.transitions a.transitions ?_ ?_ ?_
  · intro e he
    obtain ⟨⟨hsrc, hsf⟩, hd⟩ := hae e he
    refine ⟨⟨Finset.mem_union_left _ hsrc, hsf⟩, ?_⟩
    intro d hdm
    exact ⟨Finset.mem_union_left _ (hd d hdm).1, (hd d hdm).2⟩
  · intro e he
    obtain ⟨⟨hsrc, hsf⟩, _⟩ := hbe e he
    rw [if_neg hsf]
    by_cases hst : e.1.1 = b.start_state
    · rw [if_pos hst]
      exact ⟨Finset.mem_union_left _ has, hasf⟩
    · rw [if_neg hst]
      have h1 := hfa a.final_state haf
      have h2 := hmb e.1.1 hsrc
      refine ⟨Finset.mem_union_right _ (Finset.mem_image.2
        ⟨e.1.1, Finset.mem_filter.2 ⟨hsrc, hst, hsf⟩, rfl⟩), by intro heq; omega⟩
  · intro e he d hdm
    obtain ⟨_, hd⟩ := hbe e he
    rcases Finset.mem_image.1 hdm with ⟨d0, hd0, rfl⟩
    obtain ⟨hd0s, hd0ne⟩ := hd d0 hd0
    by_cases hfn : d0 = b.final_state
    · rw [if_pos hfn]
      exact ⟨Finset.mem_union_left _ haf, Ne.symm hasf⟩
    · rw [if_neg hfn, if_neg hd0ne]
      have h1 := hfa a.start_state has
      have h2 := hmb d0 hd0s
      refine ⟨Finset.mem_union_right _ (Finset.mem_image.2
        ⟨d0, Finset.mem_filter.2 ⟨hd0s, hd0ne, hfn⟩, rfl⟩), by intro heq; omega⟩

/-- `star` preserves the Thompson invariant. -/
theorem star_ThompsonWF (a : NFA T) (ha : ThompsonWF a) : ThompsonWF a.star := by
  obtain ⟨has, haf, hasf, hae⟩ := ha
  have hfa := le_fmax a.states
  have h1 := hfa a.start_state has
  have h2 := hfa a.final_state haf
  simp only [NFA.star]
  refine ⟨?_, ?_, ?_, ?_⟩ <;> dsimp only
  · exact Finset.mem_union_right _ (by simp)
  · exact Finset.mem_union_right _ (by simp)
  · omega
  refine transAdd_entryOk _ _ _ _ _ _ (transAdd_entryOk _ _ _ _ _ _ ?_ ?_ ?_) ?_ ?_
  · intro e he
    obtain ⟨⟨hsrc, hsf⟩, hd⟩ := hae e he
    have h3 := hfa e.1.1 hsrc
    refine ⟨⟨Finset.mem_union_left _ hsrc, by intro heq; omega⟩, ?_⟩
    intro d hdm
    have h4 := hfa d (hd d hdm).1
    exact ⟨Finset.mem_union_left _ (hd d hdm).1, by intro heq; omega⟩
  · exact ⟨Finset.mem_union_right _ (by simp), by omega⟩
  · intro d hdm
    rcases Finset.mem_insert.1 hdm with rfl | hdm
    · exact ⟨Finset.mem_union_left _ has, by omega⟩
    · rw [Finset.mem_singleton] at hdm
      subst hdm
      exact ⟨Finset.mem_union_right _ (by simp), by omega⟩
  · exact ⟨Finset.mem_union_left _ haf, by intro heq; omega⟩
  · intro d hdm
    rcases Finset.mem_insert.1 hdm with rfl | hdm
    · exact ⟨Finset.mem_union_left _ has, by omega⟩
    · rw [Finset.mem_singleton] at hdm
      subst hdm
      exact ⟨Finset.mem_union_right _ (by simp), by omega⟩

/-- `plus` preserves the Thompson invariant. -/
theorem plus_ThompsonWF (a : NFA T) (ha : ThompsonWF a) : ThompsonWF a.plus := by
  obtain ⟨has, haf, hasf, hae⟩ := ha
  have hfa := le_fmax a.states
  have h1 := hfa a.start_state has
  have h2 := hfa a.final_state haf
  simp only [NFA.plus]
  refine ⟨?_, ?_, ?_, ?_⟩ <;> dsimp only
  · exact Finset.mem_union_right _ (by simp)
  · exact Finset.mem_union_right _ (by simp)
  · omega
  refine transAdd_entryOk _ _ _ _ _ _ (transAdd_entryOk _ _ _ _ _ _ ?_ ?_ ?_) ?_ ?_
  · intro e he
    obtain ⟨⟨hsrc, hsf⟩, hd⟩ := hae e he
    have h3 := hfa e.1.1 hsrc
    refine ⟨⟨Finset.mem_union_left _ hsrc, by intro heq; omega⟩, ?_⟩
    intro d hdm
    have h4 := hfa d (hd d hdm).1
    exact ⟨Finset.mem_union_left _ (hd d hdm).1, by intro heq; omega⟩
  · exact ⟨Finset.mem_union_right _ (by simp), by omega⟩
  · intro d hdm
    rw [Finset.mem_singleton] at hdm
    subst hdm
    exact ⟨Finset.mem_union_left _ has, by omega⟩
  · exact ⟨Finset.mem_union_left _ haf, by intro heq; omega⟩
  · intro d hdm
    rcases Finset.mem_insert.1 hdm with rfl | hdm
    · exact ⟨Finset.mem_union_left _ has, by omega⟩
    · rw [Finset.mem_singleton] at hdm
      subst hdm
      exact ⟨Finset.mem_union_right _ (by simp), by omega⟩

/-- `opt` preserves the Thompson invariant. -/
theorem opt_ThompsonWF (a : NFA T) (ha : ThompsonWF a) : ThompsonWF a.opt := by
  obtain ⟨has, haf, hasf, hae⟩ := ha
  simp only [NFA.opt]
  refine ⟨?_, ?_, ?_, ?_⟩ <;> dsimp only
  · exact has
  · exact haf
  · exact hasf
  refine transAdd_entryOk _ _ _ _ _ _ hae ⟨has, hasf⟩ ?_
  intro d hdm
  rw [Finset.mem_singleton] at hdm
  subst hdm
  exact ⟨haf, Ne.symm hasf⟩

/-- The literal two-state automaton pushed by `constructGo` satisfies the
Thompson invariant. -/
theorem lit_ThompsonWF (c : Char) :
    ThompsonWF (⟨{0, 1}, [c], [((0, some c), {1})], 0, 1⟩ : NFA Char) := by
  refine ⟨?_, ?_, ?_, ?_⟩ <;> dsimp only
  · decide
  · decide
  · decide
  intro e he
  rw [List.mem_singleton] at he
  subst he
  refine ⟨⟨?_, ?_⟩, ?_⟩ <;> dsimp only
  · decide
  · decide
  · decide

/-- Every automaton `constructGo` returns satisfies the Thompson invariant
when every automaton on the evaluation stack does. -/
theorem constructGo_thompson : ∀ (ps : List PTok) (stack : List (NFA Char)) (A : NFA Char),
    (∀ B ∈ stack, ThompsonWF B) → constructGo ps stack = some A → ThompsonWF A
  | [], [], A, _, h => Option.noConfusion h
  | [], [B], A, hs, h => by
    have h2 : B = A := Option.some.inj h
    subst h2
    exact hs B (List.mem_cons_self _ _)
  | [], _ :: _ :: _, A, _, h => Option.noConfusion h
  | PTok.lit c :: ps, stack, A, hs, h => by
    refine constructGo_thompson ps _ A ?_ h
    intro B hB
    rcases List.mem_cons.1 hB with rfl | hB
    · exact lit_ThompsonWF c
    · exact hs B hB
  | PTok.op 0 :: ps, [], A, _, h => Option.noConfusion h
  | PTok.op 0 :: ps, [_], A, _, h => Option.noConfusion h
  | PTok.op 0 :: ps, a :: b :: stack, A, hs, h => by
    refine constructGo_thompson ps _ A ?_ h
    intro B hB
    rcases List.mem_cons.1 hB with rfl | hB
    · exact concat_ThompsonWF b a (hs b (by simp)) (hs a (by simp))
    · exact hs B (List.mem_cons_of_mem _ (List.mem_cons_of_mem _ hB))
  | PTok.op 1 :: ps, [], A, _, h => Option.noConfusion h
  | PTok.op 1 :: ps, [_], A, _, h => Option.noConfusion h
  | PTok.op 1 :: ps, a :: b :: stack, A, hs, h => by
    refine constructGo_thompson ps _ A ?_ h
    intro B hB
    rcases List.mem_cons.1 hB with rfl | hB
    · exact union_ThompsonWF b a (hs b (by simp)) (hs a (by simp))
    · exact hs B (List.mem_cons_of_mem _ (List.mem_cons_of_mem _ hB))
  | PTok.op 2 :: ps, [], A, _, h => Option.noConfusion h
  | PTok.op 2 :: ps, a :: stack, A, hs, h => by
    refine constructGo_thompson ps _ A ?_ h
    intro B hB
    rcases List.mem_cons.1 hB with rfl | hB
    · exact star_ThompsonWF a (hs a (by simp))
    · exact hs B (List.mem_cons_of_mem _ hB)
  | PTok.op 3 :: ps, [], A, _, h => Option.noConfusion h
  | PTok.op 3 :: ps, a :: stack, A, hs, h => by
    refine constructGo_thompson ps _ A ?_ h
    intro B hB
    rcases List.mem_cons.1 hB with rfl | hB
    · exact plus_ThompsonWF a (hs a (by simp))
    · exact hs B (List.mem_cons_of_mem _ hB)
  | PTok.op 4 :: ps, [], A, _, h => Option.noConfusion h
  | PTok.op 4 :: ps, a :: stack, A, hs, h => by
    refine constructGo_thompson ps _ A ?_ h
    intro B hB
    rcases List.mem_cons.1 hB with rfl | hB
    · exact opt_ThompsonWF a (hs a (by simp))
    · exact hs B (List.mem_cons_of_mem _ hB)
  | PTok.op (n + 5) :: ps, stack, A, hs, h =>
    constructGo_thompson ps stack A hs h

/-- C9: the Thompson invariant of `construct_nfa` — each of `concat`,
`union`, `star`, `plus` and `opt` preserves the invariant (start and final
states distinct members of the state set, all sources and destinations in
the state set, no transition targeting the start state, none leaving the
final state), and every NFA produced by `construct_nfa` has no transition
targeting its start state and none leaving its final state. -/
theorem C9_thompson_invariant :
    (∀ (a b : NFA T), ThompsonWF a → ThompsonWF b → ThompsonWF (a.concat b)) ∧
    (∀ (a b : NFA T), ThompsonWF a → ThompsonWF b → ThompsonWF (a.union b)) ∧
    (∀ a : NFA T, ThompsonWF a → ThompsonWF a.star) ∧
    (∀ a : NFA T, ThompsonWF a → ThompsonWF a.plus) ∧
    (∀ a : NFA T, ThompsonWF a → ThompsonWF a.opt) ∧
    (∀ (pfx : List PTok) (A : NFA Char), construct_nfa pfx = some A →
      ∀ e ∈ A.transitions, (∀ d ∈ e.2, d ≠ A.start_state) ∧ e.1.1 ≠ A.final_state) := by
  refine ⟨concat_ThompsonWF, union_ThompsonWF, star_ThompsonWF, plus_ThompsonWF,
    opt_ThompsonWF, ?_⟩
  intro pfx A h
  rw [construct_nfa] at h
  by_cases hp : pfx = []
  · rw [if_pos hp] at h
    have h2 : (⟨{0}, [], [], 0, 0⟩ : NFA Char) = A := Option.some.inj h
    subst h2
    intro e he
    exact absurd he (List.not_mem_nil e)
  · rw [if_neg hp] at h
    have hwf := constructGo_thompson pfx [] A
      (fun B hB => absurd hB (List.not_mem_nil B)) h
    intro e he
    obtain ⟨_, _, _, hae⟩ := hwf
    obtain ⟨⟨_, hsf⟩, hd⟩ := hae e he
    exact ⟨fun d hdm => (hd d hdm).2, hsf⟩

/-- C9 witness: the invariant-preservation components applied to the
literal automaton of the regex `a`, and the `construct_nfa` component
applied to the one-token postfix program `[lit a]`. -/
theorem C9_witness_concrete :
    ThompsonWF nfaLitA ∧ ThompsonWF nfaLitA.star ∧
      (construct_nfa [PTok.lit 'a'] = some nfaLitA ∧
        ∀ e ∈ nfaLitA.transitions,
          (∀ d ∈ e.2, d ≠ nfaLitA.start_state) ∧ e.1.1 ≠ nfaLitA.final_state) :=
 by
  refine ⟨by decide, ?_, by decide, ?_⟩
  · exact (@C9_thompson_invariant Char instDecidableEqChar).2.2.1 nfaLitA (by decide)
  · exact (@C9_thompson_invariant Char instDecidableEqChar).2.2.2.2.2
      [PTok.lit 'a'] nfaLitA (by decide)

/-! ### Claim C8: termination of to_dfa and minimize -/

/-- `getD` returns a list element or the default. -/
theorem getD_mem_or {α : Type _} [Inhabited α] :
    ∀ (l : List α) (i : ℕ) (d : α), l.getD i d ∈ l ∨ l.getD i d = d
  | [], _, d => Or.inr rfl
  | x :: xs, 0, d => Or.inl (by rw [List.getD_cons_zero]; exact List.mem_cons_self _ _)
  | x :: xs, i + 1, d => by
    rw [List.getD_cons_succ]
    rcases getD_mem_or xs i d with h | h
    · exact Or.inl (List.mem_cons_of_mem _ h)
    · exact Or.inr h

/-- Appending a fresh element preserves `Nodup`. -/
theorem nodup_append_singleton {α : Type _} (l : List α) (x : α)
    (hn : l.Nodup) (hx : x ∉ l) : (l ++ [x]).Nodup := by
  rw [List.nodup_append]
  exact ⟨hn, List.nodup_singleton x, fun a ha hax =>
    hx (by rw [List.mem_singleton] at hax; exact hax ▸ ha)⟩

/-- A duplicate-free list of subsets of `S` has at most `2 ^ S.card`
entries. -/
theorem nodup_subsets_le (sl : List (Finset ℤ)) (S : Finset ℤ)
    (hn : sl.Nodup) (hs : ∀ X ∈ sl, X ⊆ S) : sl.length ≤ 2 ^ S.card := by
  have hsub : sl.toFinset ⊆ S.powerset := fun X hX =>
    Finset.mem_powerset.2 (hs X (List.mem_toFinset.1 hX))
  have hcard := Finset.card_le_card hsub
  rw [List.toFinset_card_of_nodup hn, Finset.card_powerset] at hcard
  exact hcard

/-- Under the well-formedness hypothesis that all transition destination
sets lie in the state set, every lookup is a subset of the state set. -/
theorem transLookup_subset_states (A : NFA T)
    (hwf : ∀ e ∈ A.transitions, e.2 ⊆ A.states) (k : ℤ × Sym T) :
    transLookup A.transitions k ⊆ A.states := by
  rw [transLookup]
  rcases hf : A.transitions.find? (fun e => decide (e.1 = k)) with _ | e
  · rw [hf]
    exact Finset.empty_subset _
  · rw [hf]
    exact hwf e (List.mem_of_find?_eq_some hf)

/-- One saturation step stays inside the state set. -/
theorem epsStep_subset_states (A : NFA T)
    (hwf : ∀ e ∈ A.transitions, e.2 ⊆ A.states) (S : Finset ℤ)
    (hS : S ⊆ A.states) : epsStep A.transitions S ⊆ A.states := by
  rw [epsStep]
  refine Finset.union_subset hS ?_
  intro x hx
  rcases Finset.mem_biUnion.1 hx with ⟨s0, _, hmem⟩
  exact transLookup_subset_states A hwf (s0, none) hmem

/-- The epsilon closure of a state stays inside the state set. -/
theorem eps_closure_subset_states (A : NFA T)
    (hwf : ∀ e ∈ A.transitions, e.2 ⊆ A.states) (st : ℤ) (hst : st ∈ A.states)
    (inc : Bool) : A.eps_closure st inc ⊆ A.states := by
  rw [eps_closure_eq]
  refine Finset.union_subset ?_ ?_
  · cases inc
    · intro x hx
      simp at hx
    · intro x hx
      simp at hx
      exact hx ▸ hst
  · by_cases hk : transHasKey A.transitions (st, none) = true
    · rw [if_pos hk]
      have : ∀ n, (epsStep A.transitions)^[n] (transLookup A.transitions (st, none)) ⊆
          A.states := by
        intro n
        induction n with
        | zero => exact transLookup_subset_states A hwf (st, none)
        | succ n ih =>
          rw [Function.iterate_succ_apply']
          exact epsStep_subset_states A hwf _ ih
      exact this A.states.card
    · rw [if_neg (by simpa using hk)]
      exact Finset.empty_subset _

/-- One symbol step of the subset construction: it preserves
duplicate-freeness and the subset bound, appends at most one fresh subset,
and pushes exactly one worklist index per appended subset. -/
theorem toDfaSym_step (A : NFA T) (complete : Bool) (i : ℕ)
    (hwf : ∀ e ∈ A.transitions, e.2 ⊆ A.states)
    (acc : List (Finset ℤ) × DTransList T × List ℕ) (sym : T)
    (hn : acc.1.Nodup) (hs : ∀ S ∈ acc.1, S ⊆ A.states) :
    (toDfaSym A complete i acc sym).1.Nodup ∧
    (∀ S ∈ (toDfaSym A complete i acc sym).1, S ⊆ A.states) ∧
    (toDfaSym A complete i acc sym).1.length + acc.2.2.length =
      acc.1.length + (toDfaSym A complete i acc sym).2.2.length ∧
    acc.1.length ≤ (toDfaSym A complete i acc sym).1.length := by
  simp only [toDfaSym]
  split_ifs with h
  · exact ⟨hn, hs, rfl, le_rfl⟩
  · rcases hidx : acc.1.findIdx? (fun s => decide (s =
      ((acc.1.getD i ∅).biUnion
        (fun st => transLookup A.transitions (st, some sym))).biUnion
        (fun st => A.eps_closure st true))) with _ | j <;> simp only [hidx]
    · have hfresh : ((acc.1.getD i ∅).biUnion
          (fun st => transLookup A.transitions (st, some sym))).biUnion
          (fun st => A.eps_closure st true) ∉ acc.1 := by
        intro hmem
        have := List.findIdx?_eq_none_iff.1 hidx _ hmem
        simp at this
      have hsub : ((acc.1.getD i ∅).biUnion
          (fun st => transLookup A.transitions (st, some sym))).biUnion
          (fun st => A.eps_closure st true) ⊆ A.states := by
        intro x hx
        rcases Finset.mem_biUnion.1 hx with ⟨st, hst, hcl⟩
        rcases Finset.mem_biUnion.1 hst with ⟨q, _, hlk⟩
        exact eps_closure_subset_states A hwf st
          (transLookup_subset_states A hwf (q, some sym) hlk) true hcl
      refine ⟨nodup_append_singleton _ _ hn hfresh, ?_, ?_, ?_⟩
      · intro S hS
        rcases List.mem_append.1 hS with hS | hS
        · exact hs S hS
        · rw [List.mem_singleton] at hS
          subst hS
          exact hsub
      · simp only [List.length_append, List.length_singleton, List.length_cons,
          List.length_nil]
        omega
      · simp only [List.length_append]
        omega
    · exact ⟨hn, hs, trivial, le_rfl⟩

/-- The alphabet fold of one subset-construction iteration preserves the
invariants; the number of pushed worklist indices equals the number of
appended subsets. -/
theorem toDfaSym_fold (A : NFA T) (complete : Bool) (i : ℕ)
    (hwf : ∀ e ∈ A.transitions, e.2 ⊆ A.states) :
    ∀ (syms : List T) (acc : List (Finset ℤ) × DTransList T × List ℕ),
      acc.1.Nodup → (∀ S ∈ acc.1, S ⊆ A.states) →
      (syms.foldl (toDfaSym A complete i) acc).1.Nodup ∧
      (∀ S ∈ (syms.foldl (toDfaSym A complete i) acc).1, S ⊆ A.states) ∧
      (syms.foldl (toDfaSym A complete i) acc).1.length + acc.2.2.length =
        acc.1.length + (syms.foldl (toDfaSym A complete i) acc).2.2.length ∧
      acc.1.length ≤ (syms.foldl (toDfaSym A complete i) acc).1.length
  | [], acc, hn, hs => ⟨hn, hs, rfl, le_rfl⟩
  | sym :: syms, acc, hn, hs => by
    rw [List.foldl_cons]
    obtain ⟨h1, h2, h3, h4⟩ := toDfaSym_step A complete i hwf acc sym hn hs
    obtain ⟨g1, g2, g3, g4⟩ :=
      toDfaSym_fold A complete i hwf syms (toDfaSym A complete i acc sym) h1 h2
    exact ⟨g1, g2, by omega, by omega⟩

/-- The fuelled worklist loop of the subset construction returns a result
(never exhausts its fuel) whenever the potential
`|worklist| + 2·(2^|states| − |subset list|)` is below the fuel. -/
theorem toDfaLoop_terminates (A : NFA T) (complete : Bool)
    (hwf : ∀ e ∈ A.transitions, e.2 ⊆ A.states) :
    ∀ (fuel : ℕ) (wl : List ℕ) (sl : List (Finset ℤ)) (tr : DTransList T),
      sl.Nodup → (∀ S ∈ sl, S ⊆ A.states) → sl.length ≤ 2 ^ A.states.card →
      wl.length + 2 * (2 ^ A.states.card - sl.length) < fuel →
      ∃ res, toDfaLoop A complete fuel wl (sl, tr) = some res ∧
        res.1.Nodup ∧ (∀ S ∈ res.1, S ⊆ A.states) ∧
        res.1.length ≤ 2 ^ A.states.card
  | 0, wl, sl, tr, _, _, _, hp => absurd hp (by omega)
  | fuel + 1, [], sl, tr, hn, hs, hb, _ => ⟨(sl, tr), rfl, hn, hs, hb⟩
  | fuel + 1, i :: rest, sl, tr, hn, hs, hb, hp => by
    rw [toDfaLoop]
    by_cases h0 : sl.getD i ∅ = ∅
    · rw [if_pos h0]
      refine toDfaLoop_terminates A complete hwf fuel rest sl _ hn hs hb ?_
      simp only [List.length_cons] at hp
      omega
    · rw [if_neg h0]
      obtain ⟨g1, g2, g3, g4⟩ := toDfaSym_fold A complete i hwf A.alphabet (sl, tr, []) hn hs
      have hlen : (A.alphabet.foldl (toDfaSym A complete i) (sl, tr, [])).1.length ≤
          2 ^ A.states.card :=
        nodup_subsets_le _ A.states g1 g2
      refine toDfaLoop_terminates A complete hwf fuel _ _ _ g1 g2 hlen ?_
      simp only [List.length_cons] at hp
      simp only [List.length_append]
      simp only [List.length_nil] at g3
      omega

/-- `to_dfaCore` always returns a result on well-formed automata, with a
duplicate-free subset list of at most `2^|states|` entries. -/
theorem to_dfaCore_terminates (A : NFA T) (complete : Bool)
    (hstart : A.start_state ∈ A.states)
    (hwf : ∀ e ∈ A.transitions, e.2 ⊆ A.states) :
    ∃ res, A.to_dfaCore complete = some res ∧ res.1.Nodup ∧
      (∀ S ∈ res.1, S ⊆ A.states) ∧ res.1.length ≤ 2 ^ A.states.card := by
  rw [NFA.to_dfaCore]
  have h1 : (1 : ℕ) ≤ 2 ^ A.states.card := Nat.one_le_pow _ _ (by omega)
  refine toDfaLoop_terminates A complete hwf _ [0]
    [A.eps_closure A.start_state true] [] (List.nodup_singleton _) ?_ ?_ ?_
  · intro S hS
    rw [List.mem_singleton] at hS
    subst hS
    exact eps_closure_subset_states A hwf _ hstart true
  · simpa using h1
  · simp only [List.length_singleton, List.length_cons, List.length_nil]
    omega

/-- A successful DFA transition lookup lands in the state set when the
transition dict is well formed. -/
theorem dtransLookup_mem (D : DFA T) (hwf : ∀ e ∈ D.transitions, e.2 ∈ D.states)
    (k : ℤ × T) (v : ℤ) (h : dtransLookup D.transitions k = some v) :
    v ∈ D.states := by
  rw [dtransLookup] at h
  rcases hf : D.transitions.find? (fun e => decide (e.1 = k)) with _ | e
  · rw [hf] at h
    cases h
  · rw [hf] at h
    simp only [Option.map] at h
    have h2 : e.2 = v := Option.some.inj h
    exact h2 ▸ hwf e (List.mem_of_find?_eq_some hf)

/-- One step of the reachability scan: everything stays inside the state
set, the final and non-final accumulators stay disjoint, and each pushed
state accounts for exactly one newly discovered state. -/
theorem reachSym_step (D : DFA T) (hwf : ∀ e ∈ D.transitions, e.2 ∈ D.states)
    (curr : ℤ) (acc : Finset ℤ × Finset ℤ × List ℤ) (sym : T)
    (hsub : acc.1 ∪ acc.2.1 ⊆ D.states) (hdisj : acc.1 ∩ acc.2.1 = ∅) :
    (reachSym D curr acc sym).1 ∪ (reachSym D curr acc sym).2.1 ⊆ D.states ∧
    (reachSym D curr acc sym).1 ∩ (reachSym D curr acc sym).2.1 = ∅ ∧
    (reachSym D curr acc sym).2.2.length + (acc.1 ∪ acc.2.1).card =
      acc.2.2.length +
        ((reachSym D curr acc sym).1 ∪ (reachSym D curr acc sym).2.1).card ∧
    (acc.1 ∪ acc.2.1).card ≤
      ((reachSym D curr acc sym).1 ∪ (reachSym D curr acc sym).2.1).card := by
  unfold reachSym
  rcases hd : dtransLookup D.transitions (curr, sym) with _ | dst <;> simp only [hd]
  · exact ⟨hsub, hdisj, trivial, le_rfl⟩
  · have hdst : dst ∈ D.states := dtransLookup_mem D hwf (curr, sym) dst hd
    split_ifs with h1 h2
    · exact ⟨hsub, hdisj, rfl, le_rfl⟩
    · have hins : acc.1 ∪ (acc.2.1 ∪ {dst}) = insert dst (acc.1 ∪ acc.2.1) := by
        ext x
        simp only [Finset.mem_union, Finset.mem_insert, Finset.mem_singleton]
        tauto
      have hnot : dst ∉ acc.1 ∪ acc.2.1 := by
        rw [Finset.mem_union]
        exact h1
      refine ⟨?_, ?_, ?_, ?_⟩
      · rw [hins]
        exact Finset.insert_subset hdst hsub
      · ext x
        simp only [Finset.mem_inter, Finset.mem_union, Finset.mem_singleton,
          Finset.not_mem_empty, iff_false]
        rintro ⟨hx1, hx2 | hx2⟩
        · have := Finset.eq_empty_iff_forall_not_mem.1 hdisj x
          exact this (Finset.mem_inter.2 ⟨hx1, hx2⟩)
        · subst hx2
          exact h1 (Or.inl hx1)
      · rw [hins, Finset.card_insert_of_not_mem hnot]
        simp only [List.length_cons]
        omega
      · rw [hins, Finset.card_insert_of_not_mem hnot]
        omega
    · have hins : (acc.1 ∪ {dst}) ∪ acc.2.1 = insert dst (acc.1 ∪ acc.2.1) := by
        ext x
        simp only [Finset.mem_union, Finset.mem_insert, Finset.mem_singleton]
        tauto
      have hnot : dst ∉ acc.1 ∪ acc.2.1 := by
        rw [Finset.mem_union]
        exact h1
      refine ⟨?_, ?_, ?_, ?_⟩
      · rw [hins]
        exact Finset.insert_subset hdst hsub
      · ext x
        simp only [Finset.mem_inter, Finset.mem_union, Finset.mem_singleton,
          Finset.not_mem_empty, iff_false]
        rintro ⟨hx1 | hx1, hx2⟩
        · have := Finset.eq_empty_iff_forall_not_mem.1 hdisj x
          exact this (Finset.mem_inter.2 ⟨hx1, hx2⟩)
        · subst hx1
          exact h1 (Or.inr hx2)
      · rw [hins, Finset.card_insert_of_not_mem hnot]
        simp only [List.length_cons]
        omega
      · rw [hins, Finset.card_insert_of_not_mem hnot]
        omega

/-- The alphabet fold of the reachability scan preserves the invariants;
pushed states account one-for-one for newly discovered states. -/
theorem reachSym_fold (D : DFA T) (hwf : ∀ e ∈ D.transitions, e.2 ∈ D.states)
    (curr : ℤ) :
    ∀ (syms : List T) (acc : Finset ℤ × Finset ℤ × List ℤ),
      acc.1 ∪ acc.2.1 ⊆ D.states → acc.1 ∩ acc.2.1 = ∅ →
      (syms.foldl (reachSym D curr) acc).1 ∪
          (syms.foldl (reachSym D curr) acc).2.1 ⊆ D.states ∧
      (syms.foldl (reachSym D curr) acc).1 ∩
          (syms.foldl (reachSym D curr) acc).2.1 = ∅ ∧
      (syms.foldl (reachSym D curr) acc).2.2.length + (acc.1 ∪ acc.2.1).card =
        acc.2.2.length +
          ((syms.foldl (reachSym D curr) acc).1 ∪
            (syms.foldl (reachSym D curr) acc).2.1).card ∧
      (acc.1 ∪ acc.2.1).card ≤
        ((syms.foldl (reachSym D curr) acc).1 ∪
          (syms.foldl (reachSym D curr) acc).2.1).card
  | [], acc, hsub, hdisj => ⟨hsub, hdisj, rfl, le_rfl⟩
  | sym :: syms, acc, hsub, hdisj => by
    rw [List.foldl_cons]
    obtain ⟨h1, h2, h3, h4⟩ := reachSym_step D hwf curr acc sym hsub hdisj
    obtain ⟨g1, g2, g3, g4⟩ := reachSym_fold D hwf curr syms (reachSym D curr acc sym) h1 h2
    exact ⟨g1, g2, by omega, by omega⟩

/-- The fuelled reachability loop returns a result whenever the potential
`|worklist| + 2·(|states| − |found|)` is below the fuel. -/
theorem reachLoop_terminates (D : DFA T) (hwf : ∀ e ∈ D.transitions, e.2 ∈ D.states) :
    ∀ (fuel : ℕ) (wl : List ℤ) (rs rf : Finset ℤ),
      rs ∪ rf ⊆ D.states → rs ∩ rf = ∅ →
      wl.length + 2 * (D.states.card - (rs ∪ rf).card) < fuel →
      ∃ res, reachLoop D fuel wl (rs, rf) = some res ∧
        res.1 ∪ res.2 ⊆ D.states ∧ res.1 ∩ res.2 = ∅
  | 0, wl, rs, rf, _, _, hp => absurd hp (by omega)
  | fuel + 1, [], rs, rf, hsub, hdisj, _ => ⟨(rs, rf), rfl, hsub, hdisj⟩
  | fuel + 1, curr :: rest, rs, rf, hsub, hdisj, hp => by
    rw [reachLoop]
    obtain ⟨g1, g2, g3, g4⟩ := reachSym_fold D hwf curr D.alphabet (rs, rf, []) hsub hdisj
    have hcard : ((D.alphabet.foldl (reachSym D curr) (rs, rf, [])).1 ∪
        (D.alphabet.foldl (reachSym D curr) (rs, rf, [])).2.1).card ≤ D.states.card :=
      Finset.card_le_card g1
    refine reachLoop_terminates D hwf fuel _ _ _ g1 g2 ?_
    simp only [List.length_cons] at hp
    simp only [List.length_append]
    simp only [List.length_nil] at g3
    omega

/-- Partition invariant of the refinement loop: cells are nonempty,
pairwise disjoint, and drawn from the universe `U`. -/
def PartsInv (U : Finset ℤ) (parts : List (List ℤ)) : Prop :=
  (∀ p ∈ parts, p ≠ []) ∧
  List.Pairwise (fun p q => ∀ x ∈ p, x ∉ q) parts ∧
  (∀ p ∈ parts, ∀ x ∈ p, x ∈ U)

/-- Pairwise-disjoint nonempty cells drawn from `U` number at most
`|U|`. -/
theorem partsInv_length_le (U : Finset ℤ) :
    ∀ (parts : List (List ℤ)), PartsInv U parts → parts.length ≤ U.card
  | [], _ => Nat.zero_le _
  | p :: parts, ⟨hne, hpw, hmem⟩ => by
    rcases List.exists_mem_of_ne_nil p (hne p (List.mem_cons_self _ _)) with ⟨x0, hx0⟩
    have hx0U : x0 ∈ U := hmem p (List.mem_cons_self _ _) x0 hx0
    rw [List.pairwise_cons] at hpw
    have hrec := partsInv_length_le (U.erase x0) parts
      ⟨fun q hq => hne q (List.mem_cons_of_mem _ hq), hpw.2,
       fun q hq x hx => Finset.mem_erase.2
         ⟨fun heq => hpw.1 q hq x0 hx0 (heq ▸ hx),
          hmem q (List.mem_cons_of_mem _ hq) x hx⟩⟩
    have hcard := Finset.card_erase_of_mem hx0U
    have hpos : 0 < U.card := Finset.card_pos.2 ⟨x0, hx0U⟩
    simp only [List.length_cons]
    omega

/-- Membership after a `set`: the element is the stored value or an
original member. -/
theorem mem_of_mem_set {α : Type _} : ∀ (l : List α) (i : ℕ) (v x : α),
    x ∈ l.set i v → x = v ∨ x ∈ l
  | [], i, v, x, h => by simp [List.set] at h
  | a :: l, 0, v, x, h => by
    simp only [List.set] at h
    rcases List.mem_cons.1 h with h | h
    · exact Or.inl h
    · exact Or.inr (List.mem_cons_of_mem _ h)
  | a :: l, i + 1, v, x, h => by
    simp only [List.set] at h
    rcases List.mem_cons.1 h with h | h
    · exact Or.inr (h ▸ List.mem_cons_self _ _)
    · rcases mem_of_mem_set l i v x h with h | h
      · exact Or.inl h
      · exact Or.inr (List.mem_cons_of_mem _ h)

/-- Splitting a cell in place — storing one nonempty piece back at the
index and appending the other — preserves the partition invariant when the
pieces are disjoint subsets of the split cell. -/
theorem partsInv_set_append (U : Finset ℤ) :
    ∀ (parts : List (List ℤ)) (index : ℕ) (p1 p2 : List ℤ),
      PartsInv U parts →
      parts.getD index [] ≠ [] →
      p1 ≠ [] → p2 ≠ [] →
      (∀ x ∈ p1, x ∈ parts.getD index []) →
      (∀ x ∈ p2, x ∈ parts.getD index []) →
      (∀ x ∈ p1, x ∉ p2) →
      PartsInv U (parts.set index p1 ++ [p2])
  | [], index, p1, p2, _, hgd, _, _, _, _, _ => by
    simp at hgd
  | part0 :: parts, 0, p1, p2, ⟨hne, hpw, hmem⟩, hgd, h1, h2, hs1, hs2, hd => by
    rw [List.getD_cons_zero] at hs1 hs2
    rw [List.pairwise_cons] at hpw
    refine ⟨?_, ?_, ?_⟩
    · intro q hq
      simp only [List.set, List.cons_append, List.mem_cons, List.mem_append,
        List.mem_singleton, List.mem_nil_iff, or_false] at hq
      rcases hq with rfl | hq | rfl
      · exact h1
      · exact hne q (List.mem_cons_of_mem _ hq)
      · exact h2
    · simp only [List.set, List.cons_append]
      rw [List.pairwise_cons]
      constructor
      · intro q hq x hx
        rcases List.mem_append.1 hq with hq | hq
        · exact hpw.1 q hq x (hs1 x hx)
        · rw [List.mem_singleton] at hq
          subst hq
          exact hd x hx
      · rw [List.pairwise_append]
        refine ⟨hpw.2, by simp, ?_⟩
        intro q hq r hr
        rw [List.mem_singleton] at hr
        subst hr
        intro x hx hxp2
        exact hpw.1 q hq x (hs2 x hxp2) hx
    · intro q hq x hx
      simp only [List.set, List.cons_append, List.mem_cons, List.mem_append,
        List.mem_singleton, List.mem_nil_iff, or_false] at hq
      rcases hq with rfl | hq | rfl
      · exact hmem part0 (List.mem_cons_self _ _) x (hs1 x hx)
      · exact hmem q (List.mem_cons_of_mem _ hq) x hx
      · exact hmem part0 (List.mem_cons_self _ _) x (hs2 x hx)
  | part0 :: parts, index + 1, p1, p2, ⟨hne, hpw, hmem⟩, hgd, h1, h2, hs1, hs2, hd => by
    rw [List.getD_cons_succ] at hgd hs1 hs2
    rw [List.pairwise_cons] at hpw
    have hcell : parts.getD index [] ∈ parts := by
      rcases getD_mem_or parts index [] with h | h
      · exact h
      · exact absurd h hgd
    obtain ⟨ihne, ihpw, ihmem⟩ := partsInv_set_append U parts index p1 p2
      ⟨fun q hq => hne q (List.mem_cons_of_mem _ hq), hpw.2,
       fun q hq x hx => hmem q (List.mem_cons_of_mem _ hq) x hx⟩
      hgd h1 h2 hs1 hs2 hd
    refine ⟨?_, ?_, ?_⟩
    · intro q hq
      simp only [List.set, List.cons_append, List.mem_cons] at hq
      rcases hq with rfl | hq
      · exact hne _ (List.mem_cons_self _ _)
      · exact ihne q hq
    · simp only [List.set, List.cons_append]
      rw [List.pairwise_cons]
      refine ⟨?_, ihpw⟩
      intro q hq x hx
      rcases List.mem_append.1 hq with hq | hq
      · rcases mem_of_mem_set parts index p1 q hq with rfl | hq
        · intro hxp1
          exact hpw.1 _ hcell x hx (hs1 x hxp1)
        · exact hpw.1 q hq x hx
      · rw [List.mem_singleton] at hq
        subst hq
        intro hxp2
        exact hpw.1 _ hcell x hx (hs2 x hxp2)
    · intro q hq x hx
      simp only [List.set, List.cons_append, List.mem_cons] at hq
      rcases hq with rfl | hq
      · exact hmem _ (List.mem_cons_self _ _) x hx
      · exact ihmem q hq x hx

/-- One refinement step: the partition invariant is preserved, one worklist
index is pushed per appended cell, and the partition list never shrinks. -/
theorem refineIndex_progress (D : DFA T) (cp : List ℤ) (sym : T) (U : Finset ℤ)
    (st : MinState) (index : ℕ) (hinv : PartsInv U st.parts) :
    PartsInv U (refineIndex D cp sym st index).parts ∧
    (refineIndex D cp sym st index).parts.length + st.wl.length =
      st.parts.length + (refineIndex D cp sym st index).wl.length ∧
    st.parts.length ≤ (refineIndex D cp sym st index).parts.length := by
  have hsplit : splitCell D cp sym (st.parts.getD index []) =
      ((st.parts.getD index []).filter (goesToSplitter D cp sym),
       (st.parts.getD index []).filter (fun s => !goesToSplitter D cp sym s)) := by
    rw [splitCell, splitCellGo_eq_filter]
    simp
  simp only [refineIndex, hsplit]
  by_cases h : List.filter (goesToSplitter D cp sym) (st.parts.getD index []) = [] ∨
      List.filter (fun s => !goesToSplitter D cp sym s) (st.parts.getD index []) = []
  · rw [if_pos h]
    exact ⟨hinv, rfl, le_rfl⟩
  · rw [if_neg h]
    dsimp only
    rw [not_or] at h
    have hgd : st.parts.getD index [] ≠ [] := by
      intro h0
      rw [h0] at h
      exact h.1 rfl
    refine ⟨?_, ?_, ?_⟩
    · refine partsInv_set_append U st.parts index _ _ hinv hgd h.1 h.2 ?_ ?_ ?_
      · intro x hx
        exact (List.mem_filter.1 hx).1
      · intro x hx
        exact (List.mem_filter.1 hx).1
      · exact (split_pieces_partition D cp sym (st.parts.getD index [])).1
    · simp only [List.length_append, List.length_set, List.length_singleton]
      split_ifs <;> simp only [List.length_cons] <;> omega
    · simp only [List.length_append, List.length_set]
      omega

/-- Progress relation carried through the refinement folds: the invariant
holds and pushed worklist indices account for appended cells. -/
def MinProg (U : Finset ℤ) (s0 s : MinState) : Prop :=
  PartsInv U s.parts ∧
  s.parts.length + s0.wl.length = s0.parts.length + s.wl.length ∧
  s0.parts.length ≤ s.parts.length

/-- The double fold of one refinement iteration preserves the progress
relation. -/
theorem minProg_fold (D : DFA T) (cp : List ℤ) (U : Finset ℤ) (s0 : MinState)
    (syms : List T) (s : MinState) (hs : MinProg U s0 s) :
    MinProg U s0 (syms.foldl (fun s sym =>
      (List.range s.parts.length).foldl (refineIndex D cp sym) s) s) := by
  refine foldl_preserve _ (MinProg U s0) ?_ syms s hs
  intro b sym hb
  refine foldl_preserve (refineIndex D cp sym) (MinProg U s0) ?_
    (List.range b.parts.length) b hb
  intro b2 i hb2
  obtain ⟨hinv, heq, hle⟩ := hb2
  obtain ⟨g1, g2, g3⟩ := refineIndex_progress D cp sym U b2 i hinv
  exact ⟨g1, by omega, by omega⟩

/-- The fuelled refinement loop returns a result whenever the potential
`|worklist| + 2·(|U| − |partitions|)` is below the fuel. -/
theorem minimizeLoop_terminates (D : DFA T) (U : Finset ℤ) :
    ∀ (fuel : ℕ) (st : MinState), PartsInv U st.parts →
      st.wl.length + 2 * (U.card - st.parts.length) < fuel →
      ∃ res, minimizeLoop D fuel st = some res ∧ PartsInv U res.parts ∧
        res.parts.length ≤ U.card
  | 0, st, _, hp => absurd hp (by omega)
  | fuel + 1, st, hinv, hp => by
    rw [minimizeLoop]
    rcases hwl : st.wl with _ | ⟨i, rest⟩
    · exact ⟨st, rfl, hinv, partsInv_length_le U st.parts hinv⟩
    · obtain ⟨g1, g2, g3⟩ := minProg_fold D (st.parts.getD i []) U
        ⟨st.parts, st.finals, rest, st.events⟩ D.alphabet
        ⟨st.parts, st.finals, rest, st.events⟩ ⟨hinv, rfl, le_rfl⟩
      set stf := D.alphabet.foldl (fun s sym =>
        (List.range s.parts.length).foldl
          (refineIndex D (st.parts.getD i []) sym) s)
        ⟨st.parts, st.finals, rest, st.events⟩ with hstf
      have hbound := partsInv_length_le U _ g1
      dsimp only at g2 g3
      refine minimizeLoop_terminates D U fuel stf g1 ?_
      rw [hwl] at hp
      simp only [List.length_cons] at hp
      omega

/-- Reduction of an `Option` do-bind whose scrutinee is known. -/
theorem do_bind_some {α β : Type _} (x : Option α) (a : α) (f : α → Option β)
    (h : x = some a) : (do let y ← x; f y) = f a := by
  rw [h]
  rfl

/-- `minimizeCore` always returns a result on well-formed automata: the
reachability scan and the refinement loop never exhaust their fuel, and the
final partition list has nonempty pairwise-disjoint cells, at most one per
state. -/
theorem minimizeCore_terminates (D : DFA T)
    (hwf : ∀ e ∈ D.transitions, e.2 ∈ D.states) (hstart : D.start_state ∈ D.states) :
    ∃ r, D.minimizeCore = some r ∧
      (∀ p ∈ r.partitions, p ≠ []) ∧
      List.Pairwise (fun p q => ∀ x ∈ p, x ∉ q) r.partitions ∧
      r.partitions.length ≤ D.states.card := by
  have hcard1 : 0 < D.states.card := Finset.card_pos.2 ⟨_, hstart⟩
  obtain ⟨reach, hre, hsub, hdisj⟩ :
      ∃ reach, reachLoop D (2 * D.states.card + 2) [D.start_state]
        (if D.start_state ∈ D.final_states then (∅, {D.start_state})
         else ({D.start_state}, ∅)) = some reach ∧
        reach.1 ∪ reach.2 ⊆ D.states ∧ reach.1 ∩ reach.2 = ∅ := by
    by_cases h0 : D.start_state ∈ D.final_states
    · rw [if_pos h0]
      refine reachLoop_terminates D hwf _ _ _ _ ?_ ?_ ?_
      · intro x hx
        simp at hx
        subst hx
        exact hstart
      · simp
      · have hc : ((∅ : Finset ℤ) ∪ {D.start_state}).card = 1 := by simp
        rw [hc]
        simp only [List.length_singleton]
        omega
    · rw [if_neg h0]
      refine reachLoop_terminates D hwf _ _ _ _ ?_ ?_ ?_
      · intro x hx
        simp at hx
        subst hx
        exact hstart
      · simp
      · have hc : (({D.start_state} : Finset ℤ) ∪ ∅).card = 1 := by simp
        rw [hc]
        simp only [List.length_singleton]
        omega
  rw [DFA.minimizeCore, do_bind_some _ _ _ hre]
  by_cases hrf : reach.2 = ∅
  · rw [if_pos hrf]
    exact ⟨_, rfl, by simp, List.Pairwise.nil, by simp⟩
  · rw [if_neg hrf]
    obtain ⟨xf, hxf⟩ := Finset.nonempty_iff_ne_empty.2 hrf
    have hUpos : 0 < (reach.1 ∪ reach.2).card :=
      Finset.card_pos.2 ⟨xf, Finset.mem_union_right _ hxf⟩
    have hUle : (reach.1 ∪ reach.2).card ≤ D.states.card := Finset.card_le_card hsub
    by_cases hrs : reach.1 = ∅
    · rw [if_pos hrs]
      have hinv0 : PartsInv (reach.1 ∪ reach.2) [sortFin reach.2] := by
        refine ⟨?_, by simp, ?_⟩
        · intro p hp
          rw [List.mem_singleton] at hp
          subst hp
          exact sortFin_ne_nil reach.2 xf hxf
        · intro p hp x hx
          rw [List.mem_singleton] at hp
          subst hp
          rw [mem_sortFin] at hx
          exact Finset.mem_union_right _ hx
      have hphi0 : ((List.range ([sortFin reach.2] : List (List ℤ)).length).reverse).length +
          2 * ((reach.1 ∪ reach.2).card - ([sortFin reach.2] : List (List ℤ)).length) <
          2 * (reach.1 ∪ reach.2).card + 3 := by
        simp only [List.length_reverse, List.length_range, List.length_singleton]
        omega
      obtain ⟨res, hml, hinv2, hlen⟩ := minimizeLoop_terminates D (reach.1 ∪ reach.2)
        (2 * (reach.1 ∪ reach.2).card + 3)
        ⟨[sortFin reach.2], {0}, (List.range [sortFin reach.2].length).reverse, []⟩
        hinv0 hphi0
      rw [do_bind_some _ _ _ hml]
      exact ⟨_, rfl, hinv2.1, hinv2.2.1, le_trans hlen hUle⟩
    · rw [if_neg hrs]
      obtain ⟨xs, hxs⟩ := Finset.nonempty_iff_ne_empty.2 hrs
      have hinv0 : PartsInv (reach.1 ∪ reach.2) [sortFin reach.2, sortFin reach.1] := by
        refine ⟨?_, ?_, ?_⟩
        · intro p hp
          rcases List.mem_cons.1 hp with rfl | hp
          · exact sortFin_ne_nil reach.2 xf hxf
          · rw [List.mem_singleton] at hp
            subst hp
            exact sortFin_ne_nil reach.1 xs hxs
        · rw [List.pairwise_cons]
          refine ⟨?_, by simp⟩
          intro q hq x hx
          rw [List.mem_singleton] at hq
          subst hq
          rw [mem_sortFin] at hx
          rw [mem_sortFin]
          intro hx2
          have hxin : x ∈ reach.1 ∩ reach.2 := Finset.mem_inter.2 ⟨hx2, hx⟩
          rw [hdisj] at hxin
          exact Finset.not_mem_empty x hxin
        · intro p hp x hx
          rcases List.mem_cons.1 hp with rfl | hp
          · rw [mem_sortFin] at hx
            exact Finset.mem_union_right _ hx
          · rw [List.mem_singleton] at hp
            subst hp
            rw [mem_sortFin] at hx
            exact Finset.mem_union_left _ hx
      have hphi0 : ((List.range
            ([sortFin reach.2, sortFin reach.1] : List (List ℤ)).length).reverse).length +
          2 * ((reach.1 ∪ reach.2).card -
            ([sortFin reach.2, sortFin reach.1] : List (List ℤ)).length) <
          2 * (reach.1 ∪ reach.2).card + 3 := by
        simp only [List.length_reverse, List.length_range, List.length_cons,
          List.length_singleton, List.length_nil]
        omega
      obtain ⟨res, hml, hinv2, hlen⟩ := minimizeLoop_terminates D (reach.1 ∪ reach.2)
        (2 * (reach.1 ∪ reach.2).card + 3)
        ⟨[sortFin reach.2, sortFin reach.1], {0},
          (List.range [sortFin reach.2, sortFin reach.1].length).reverse, []⟩
        hinv0 hphi0
      rw [do_bind_some _ _ _ hml]
      exact ⟨_, rfl, hinv2.1, hinv2.2.1, le_trans hlen hUle⟩

/-- C8: `to_dfa` and `minimize` terminate on every well-formed automaton.
The subset construction's fuel never runs out: its list of NFA-state
subsets is duplicate-free and so never exceeds `2^|NFA states|` entries.
The reachability and refinement loops of `minimize` never run out of fuel
either, and the final partition list consists of nonempty pairwise-disjoint
cells, so its length is bounded by the number of reachable states (hence by
`|states|`). -/
theorem C8_termination_bounds (A : NFA T) (D : DFA T) (complete : Bool)
    (hA1 : A.start_state ∈ A.states) (hA2 : ∀ e ∈ A.transitions, e.2 ⊆ A.states)
    (hD1 : D.start_state ∈ D.states) (hD2 : ∀ e ∈ D.transitions, e.2 ∈ D.states) :
    (∃ res, A.to_dfaCore complete = some res ∧ res.1.Nodup ∧
      res.1.length ≤ 2 ^ A.states.card) ∧
    (∃ r, D.minimizeCore = some r ∧ (∀ p ∈ r.partitions, p ≠ []) ∧
      List.Pairwise (fun p q => ∀ x ∈ p, x ∉ q) r.partitions ∧
      r.partitions.length ≤ D.states.card) := by
  constructor
  · obtain ⟨res, h1, h2, _, h4⟩ := to_dfaCore_terminates A complete hA1 hA2
    exact ⟨res, h1, h2, h4⟩
  · exact minimizeCore_terminates D hD2 hD1

/-- C8 witness: the termination theorem applied to the literal NFA of the
regex `a` and to the four-state chain DFA. -/
theorem C8_witness_concrete :
    (nfaLitA.start_state ∈ nfaLitA.states ∧
      (∀ e ∈ nfaLitA.transitions, e.2 ⊆ nfaLitA.states) ∧
      dfaChain.start_state ∈ dfaChain.states ∧
      (∀ e ∈ dfaChain.transitions, e.2 ∈ dfaChain.states)) ∧
    (∃ res, nfaLitA.to_dfaCore false = some res ∧ res.1.Nodup ∧
      res.1.length ≤ 2 ^ nfaLitA.states.card) ∧
    (∃ r, dfaChain.minimizeCore = some r ∧ (∀ p ∈ r.partitions, p ≠ []) ∧
      List.Pairwise (fun p q => ∀ x ∈ p, x ∉ q) r.partitions ∧
      r.partitions.length ≤ dfaChain.states.card) :=
  ⟨⟨by decide, by decide, by decide, by decide⟩,
    C8_termination_bounds nfaLitA dfaChain false
      (by decide) (by decide) (by decide) (by decide)⟩

end Automata
